import Mathlib

/-!
# img-thumbnailer: the resize geometry, the engine call sequence and the fetcher

A shallow embedding of `main.go` (functions `resize` and `getFile`).

Modelling conventions.

* A Go `float64` value is the rational it denotes. Every `float64` operation of the source
  (`float64(x)`, `/`, `*`, `+`, `-`) is the exact operation followed by `round64`, the IEEE 754
  rounding to the nearest binary64 value, ties to even. `round64` has 53 significant bits and
  no bound on the exponent: it is the `float64` result whenever that result is finite and
  not subnormal, which holds for every operation of `resize` on 64-bit arguments and a
  decoded image of positive size. A division by a source size of 0 gives 0 here and an
  infinity or NaN in Go. `math.Floor` is `Int.floor`.
* Go `int` values are integers (`Int`); `uint(x)` of an `int` is reduction modulo `2 ^ 64`,
  and `int(f)` of a `float64` is truncation (Go leaves the result to the implementation when
  the value does not fit an `int`; the theorems on values bound the sizes).
* The image engine, the file system and the HTTP client are oracles: records of functions
  that give the outcome of each call; every call made is appended to an event trace.
* A Go result pair `(string, error)` is the structure `Ret`, with `err = none` for `nil`.
-/

namespace Thumbnailer

/-! ## `float64` rounding -/

/-- Position of the highest set bit of `n`, searched within `fuel` halvings. -/
def ilog2 : Nat → Nat → Nat
  | 0, _ => 0
  | fuel + 1, n => if 2 ≤ n then ilog2 fuel (n / 2) + 1 else 0

/-- The binary exponent of a nonzero rational: the `e` with `2 ^ e ≤ |q| < 2 ^ (e + 1)`. -/
def binExp (q : ℚ) : Int :=
  let e0 : Int := (ilog2 q.num.natAbs q.num.natAbs : Int) - (ilog2 q.den q.den : Int)
  if (2 : ℚ) ^ e0 ≤ |q| then e0 else e0 - 1

/-- Rounding to the nearest integer, ties to the even one. -/
def roundNE (r : ℚ) : Int :=
  if r - Int.floor r < 1 / 2 then Int.floor r
  else if 1 / 2 < r - Int.floor r then Int.floor r + 1
  else if Int.floor r % 2 = 0 then Int.floor r else Int.floor r + 1

/-- The `float64` nearest to `q`, ties to even: `q` rounded to a multiple of the unit in the
last place of its binade, `2 ^ (binExp q - 52)`. -/
def round64 (q : ℚ) : ℚ :=
  (roundNE (q / 2 ^ (binExp q - 52)) : ℚ) * 2 ^ (binExp q - 52)

/-! ## Go conversions -/

/-- Go `int(f)` for a `float64`: truncation toward zero. -/
def intOfFloat (q : ℚ) : Int :=
  if 0 ≤ q then Int.floor q else Int.ceil q

/-- Go `uint(x)` for an `int`: the value modulo `2 ^ 64`. -/
def uintOfInt (x : Int) : Nat :=
  (x % 2 ^ 64).toNat

/-- Go `uint(f)` for a `float64`: truncation toward zero, then as for an `int`. -/
def uintOfFloat (q : ℚ) : Nat :=
  uintOfInt (intOfFloat q)

/-- The largest value of a Go `int` on a 64-bit platform. -/
def maxInt : Int := 2 ^ 63 - 1

/-! ## Geometry of `resize` (lines 47-65) -/

/-- Arguments of one `CropImage` call: width, height, x offset, y offset. -/
structure CropArgs where
  width : Nat
  height : Nat
  x : Int
  y : Int
deriving DecidableEq, Repr

/-- State of the local variables `w`, `h` after line 65, with the `CropImage` call made on
the way, if any. -/
structure Geometry where
  w : Int
  h : Int
  crop : Option CropArgs
deriving DecidableEq, Repr

/-- Lines 47-65 of `resize`: `iw`, `ih` are the results of `GetImageWidth` and
`GetImageHeight`, `w`, `h` the requested dimensions. Each `float64` operation of the source
is rounded by `round64`. -/
def geometry (iw ih : Nat) (w h : Int) : Geometry :=
  let fw : ℚ := round64 (w : ℚ)
  let fh : ℚ := round64 (h : ℚ)
  let ow : ℚ := round64 (iw : ℚ)
  let oh : ℚ := round64 (ih : ℚ)
  if w = 0 then
    let scaling := round64 (fh / oh)
    ⟨intOfFloat ((Int.floor (round64 (round64 (scaling * ow) + 1 / 2)) : Int) : ℚ), h, none⟩
  else if h = 0 then
    let scaling := round64 (fw / ow)
    ⟨w, intOfFloat ((Int.floor (round64 (round64 (scaling * oh) + 1 / 2)) : Int) : ℚ), none⟩
  else if round64 (ow / oh) > round64 (fw / fh) then
    let scaling := round64 (fh / oh)
    let nw : ℚ := ((Int.floor (round64 (round64 (fw / scaling) + 1 / 2)) : Int) : ℚ)
    let dw : Int := intOfFloat (round64 (ow - nw))
    if dw ≥ 1 then
      ⟨w, h, some ⟨uintOfFloat nw, uintOfFloat oh, Int.tdiv dw 2, 0⟩⟩
    else
      ⟨w, h, none⟩
  else
    ⟨w, h, none⟩

/-- The value of `math.Floor(scaling*a + 0.5)` with `scaling = s / b` in `float64`, for
arguments that `float64` represents exactly: the derived dimension of lines 53-54 and
56-57. -/
def derivedDim (s a b : Nat) : Int :=
  Int.floor (round64 (round64 (round64 ((s : ℚ) / b) * a) + 1 / 2))

/-- The value of `math.Floor(fw/scaling + 0.5)` with `scaling = fh / oh` in `float64`, for
arguments that `float64` represents exactly: the pre-crop width `nw` of lines 59-60. -/
def preCropWidth (w h oh : Nat) : Int :=
  Int.floor (round64 (round64 ((w : ℚ) / round64 ((h : ℚ) / oh)) + 1 / 2))

/-! ## The engine and `resize` -/

/-- A Go `(string, error)` result; `err = none` is `nil`. -/
structure Ret where
  path : String
  err : Option String
deriving DecidableEq, Repr

/-- Calls that `resize` makes, in the order made. `init` is `imagick.Initialize`;
`resizeImage` is always called with `FILTER_LANCZOS`. -/
inductive Event where
  | lock
  | unlock
  | init
  | terminate
  | newMagickWand
  | destroy
  | readImage (src : String)
  | getImageWidth
  | getImageHeight
  | cropImage (w h : Nat) (x y : Int)
  | resizeImage (w h : Nat)
  | setImageFormat (format : String)
  | setImageCompressionQuality (q : Nat)
  | tempFile
  | writeImageFile (name : String)
  | close (name : String)
deriving DecidableEq, Repr

/-- Outcomes of the calls into imagick and `ioutil` during one `resize`; an error is
`some msg`, success is `none`. -/
structure Engine where
  readImage : String → Option String
  getImageWidth : String → Nat
  getImageHeight : String → Nat
  cropImage : Nat → Nat → Int → Int → Option String
  resizeImage : Nat → Nat → Option String
  setImageFormat : String → Option String
  setImageCompressionQuality : Nat → Option String
  tempFile : Except String String
  writeImageFile : String → Option String

/-- The `CropImage` call of a geometry, as a trace fragment. -/
def cropEvents : Option CropArgs → List Event
  | none => []
  | some c => [Event.cropImage c.width c.height c.x c.y]

/-- Deferred calls pending once the wand exists (lines 31, 37, 40), in execution order. -/
def deferred : List Event :=
  [Event.destroy, Event.terminate, Event.unlock]

/-- Function `resize` of `main.go`: the returned pair and the calls made. The result of
`CropImage` on line 63 is discarded, as in the source. -/
def resize (E : Engine) (src format : String) (w h : Int) (compression : Nat) :
    Ret × List Event :=
  if w = 0 ∧ h = 0 then
    (⟨"", some "width and height of image cannot both be unset"⟩, [Event.lock, Event.unlock])
  else
    let t1 := [Event.lock, Event.init, Event.newMagickWand, Event.readImage src]
    match E.readImage src with
    | some e => (⟨"", some e⟩, t1 ++ deferred)
    | none =>
      let g := geometry (E.getImageWidth src) (E.getImageHeight src) w h
      let t2 := t1 ++ [Event.getImageWidth, Event.getImageHeight] ++ cropEvents g.crop
        ++ [Event.resizeImage (uintOfInt g.w) (uintOfInt g.h)]
      match E.resizeImage (uintOfInt g.w) (uintOfInt g.h) with
      | some e => (⟨"", some e⟩, t2 ++ deferred)
      | none =>
        let t3 := t2 ++ [Event.setImageFormat format]
        match E.setImageFormat format with
        | some e => (⟨"", some e⟩, t3 ++ deferred)
        | none =>
          let t4 := t3 ++ [Event.setImageCompressionQuality compression]
          match E.setImageCompressionQuality compression with
          | some e => (⟨"", some e⟩, t4 ++ deferred)
          | none =>
            let t5 := t4 ++ [Event.tempFile]
            match E.tempFile with
            | Except.error e => (⟨"", some e⟩, t5 ++ deferred)
            | Except.ok name =>
              let t6 := t5 ++ [Event.writeImageFile name]
              match E.writeImageFile name with
              | some e => (⟨"", some e⟩, t6 ++ Event.close name :: deferred)
              | none => (⟨name, none⟩, t6 ++ Event.close name :: deferred)

/-- The dimensions of the `ResizeImage` calls in a trace. -/
def scaleDims : List Event → List (Nat × Nat)
  | [] => []
  | Event.resizeImage w h :: t => (w, h) :: scaleDims t
  | _ :: t => scaleDims t

/-- The arguments of the `CropImage` calls in a trace. -/
def cropCalls : List Event → List CropArgs
  | [] => []
  | Event.cropImage w h x y :: t => ⟨w, h, x, y⟩ :: cropCalls t
  | _ :: t => cropCalls t

/-- An engine step of the invocation sequence: decode, crop, scale, format, quality,
write. -/
def Event.isEngineStep : Event → Bool
  | Event.readImage _ => true
  | Event.cropImage _ _ _ _ => true
  | Event.resizeImage _ _ => true
  | Event.setImageFormat _ => true
  | Event.setImageCompressionQuality _ => true
  | Event.writeImageFile _ => true
  | _ => false

/-! ## `getFile` -/

/-- The part of an `http.Response` that `getFile` reads. -/
structure Response where
  statusCode : Int
  body : String
deriving DecidableEq, Repr

/-- Calls that `getFile` makes, in the order made. -/
inductive FetchEvent where
  | get (url : String)
  | tempFile
  | copy (name body : String)
  | closeFile (name : String)
  | closeBody
deriving DecidableEq, Repr

/-- Outcomes of the calls of `getFile` into `net/http`, `ioutil` and `io`. -/
structure Net where
  get : String → Except String Response
  tempFile : Except String String
  copy : String → String → Option String

/-- The message built on lines 103-104: `Error getting the file (url): HTTP (code)`, the
url between single quotes. -/
def statusError (url : String) (code : Int) : String :=
  "Error getting the file \x27" ++ url ++ "\x27: HTTP " ++ toString code

/-- Function `getFile` of `main.go`: the returned pair and the calls made. -/
def getFile (N : Net) (url : String) : Ret × List FetchEvent :=
  match N.get url with
  | Except.error e => (⟨"", some e⟩, [FetchEvent.get url])
  | Except.ok resp =>
    if resp.statusCode ≠ 200 then
      (⟨"", some (statusError url resp.statusCode)⟩, [FetchEvent.get url, FetchEvent.closeBody])
    else
      match N.tempFile with
      | Except.error e =>
        (⟨"", some e⟩, [FetchEvent.get url, FetchEvent.tempFile, FetchEvent.closeBody])
      | Except.ok name =>
        let t := [FetchEvent.get url, FetchEvent.tempFile, FetchEvent.copy name resp.body,
          FetchEvent.closeFile name, FetchEvent.closeBody]
        match N.copy name resp.body with
        | some e => (⟨"", some e⟩, t)
        | none => (⟨name, none⟩, t)

/-- The HTTP success class: status codes 200 to 299. -/
def isSuccessClass (code : Int) : Bool :=
  decide (200 ≤ code ∧ code ≤ 299)

/-! ## Concurrent calls of `resize` -/

/-- The arguments of one call of `resize`, with the engine outcomes that the call meets. -/
structure Call where
  engine : Engine
  src : String
  format : String
  w : Int
  h : Int
  compression : Nat

/-- The calls made during one call of `resize`, in order. -/
def Call.trace (c : Call) : List Event :=
  (resize c.engine c.src c.format c.w c.h c.compression).2

/-- A trace that takes `resizeMutex` first, releases it last, and does each once. -/
def Bracketed (t : List Event) : Prop :=
  t.head? = some Event.lock ∧ t.getLast? = some Event.unlock ∧
  t.count Event.lock = 1 ∧ t.count Event.unlock = 1

/-- A process whose goroutines each run one trace: the state of `resizeMutex` and the events
performed so far by all goroutines, latest first, each with the number of its goroutine. -/
structure Process where
  locked : Bool
  log : List (Nat × Event)
deriving DecidableEq, Repr

/-- The number of events that goroutine `i` has performed. -/
def performed (log : List (Nat × Event)) (i : Nat) : Nat :=
  log.countP (fun x => x.1 == i)

/-- The scheduler lets goroutine `i` perform its next event. As for `sync.Mutex`, `lock`
is performed only while the mutex is unlocked (the goroutine stays blocked otherwise) and
locks it; `unlock` unlocks it. A goroutine whose trace is finished does nothing. -/
def step (prog : Nat → List Event) (s : Process) (i : Nat) : Process :=
  match (prog i)[performed s.log i]? with
  | none => s
  | some e =>
    if e = Event.lock then
      if s.locked then s else ⟨true, (i, e) :: s.log⟩
    else if e = Event.unlock then ⟨false, (i, e) :: s.log⟩
    else ⟨s.locked, (i, e) :: s.log⟩

/-- The process after the schedule `sched`, the list of the goroutines scheduled in turn. -/
def run (prog : Nat → List Event) (sched : List Nat) : Process :=
  sched.foldl (step prog) ⟨false, []⟩

/-- Goroutine `i` has begun its trace and not finished it. -/
def inside (prog : Nat → List Event) (s : Process) (i : Nat) : Bool :=
  decide (0 < performed s.log i ∧ performed s.log i < (prog i).length)

/-- The events of each goroutine are consecutive in the log: an event either follows an
event of the same goroutine or is the first of its goroutine. -/
def contiguous : List (Nat × Event) → Bool
  | [] => true
  | x :: rest =>
    contiguous rest &&
      (rest.head?.map Prod.fst == some x.1 || decide (performed rest x.1 = 0))

/-- The invariant of a process: while the mutex is unlocked no goroutine is inside its
trace; while it is locked exactly one is, and that one performed the latest event; the
events of each goroutine are consecutive. -/
structure Serial (prog : Nat → List Event) (s : Process) : Prop where
  unlocked : s.locked = false → ∀ i, inside prog s i = false
  held : s.locked = true → ∃ i, inside prog s i = true ∧
    s.log.head?.map Prod.fst = some i ∧ ∀ j, j ≠ i → inside prog s j = false
  contig : contiguous s.log = true

/-! ## Fixtures of `thumbnail_test.go` -/

/-- An engine on which every call succeeds and the decoded image is `ow` by `oh`, as for
the images the tests create. -/
def okEngine (ow oh : Nat) : Engine where
  readImage := fun _ => none
  getImageWidth := fun _ => ow
  getImageHeight := fun _ => oh
  cropImage := fun _ _ _ _ => none
  resizeImage := fun _ _ => none
  setImageFormat := fun _ => none
  setImageCompressionQuality := fun _ => none
  tempFile := Except.ok "thumbnailer"
  writeImageFile := fun _ => none

/-- The engine of `okEngine 100 100`, except that every `CropImage` call fails. -/
def cropFailEngine : Engine :=
  { okEngine 100 100 with cropImage := fun _ _ _ _ => some "crop failed" }

/-- A network on which every request completes with status `code` and the body `body`, and
the scratch file can be created and written. -/
def netWithStatus (code : Int) : Net where
  get := fun _ => Except.ok ⟨code, "body"⟩
  tempFile := Except.ok "thumbnailer"
  copy := fun _ _ => none

/-- A call of `resize` on `okEngine ow oh` with the arguments of the tests. -/
def testCall (ow oh : Nat) (w h : Int) : Call :=
  ⟨okEngine ow oh, "test_tmp/src.jpg", "jpg", w, h, 95⟩

/-! ## The reference plan of the specification -/

/-- The crop region of the reference plan for a source `ow` by `oh` and a request `w` by `h`
(nonnegative integers, 0 for unset), given the pre-crop width `nw`: with
`deltaW = ow - nw`, a crop is planned exactly when both dimensions are set, the source is
wider than the target and `deltaW ≥ 1`; the region is `nw` wide, `oh` high, at horizontal
offset `floor (deltaW / 2)` and vertical offset 0. -/
def specCropWith (ow oh w h : Nat) (nw : Int) : Option CropArgs :=
  let deltaW : Int := (ow : Int) - nw
  if 0 < w ∧ 0 < h ∧ (ow : ℚ) / oh > (w : ℚ) / h ∧ deltaW ≥ 1 then
    some ⟨nw.toNat, oh, deltaW / 2, 0⟩
  else
    none

/-- The crop region of the reference plan, with the pre-crop width of the specification,
`nw = floor (w * oh / h + 1 / 2)` in exact arithmetic. -/
def specCrop (ow oh w h : Nat) : Option CropArgs :=
  specCropWith ow oh w h (Int.floor ((w : ℚ) * oh / h + 1 / 2))

/-! ## Rounding to `float64` -/

theorem ilog2_spec (fuel n : Nat) (hn : 0 < n) (hf : n ≤ fuel) :
    2 ^ ilog2 fuel n ≤ n ∧ n < 2 ^ (ilog2 fuel n + 1) := by
  induction fuel generalizing n with
  | zero => omega
  | succ f ih =>
    unfold ilog2
    split
    · rename_i h2
      have := ih (n / 2) (by omega) (by omega)
      rw [pow_succ, pow_succ]
      omega
    · simp
      omega

theorem binExp_spec (q : ℚ) (hq : q ≠ 0) :
    (2 : ℚ) ^ binExp q ≤ |q| ∧ |q| < (2 : ℚ) ^ (binExp q + 1) := by
  have hn : 0 < q.num.natAbs := Int.natAbs_pos.mpr (Rat.num_ne_zero.mpr hq)
  have hd : 0 < q.den := q.den_pos
  obtain ⟨n1, n2⟩ := ilog2_spec q.num.natAbs q.num.natAbs hn le_rfl
  obtain ⟨d1, d2⟩ := ilog2_spec q.den q.den hd le_rfl
  have habs : |q| = (q.num.natAbs : ℚ) / (q.den : ℚ) := by
    rw [Rat.abs_def, Rat.divInt_eq_div]
    simp [Nat.cast_natAbs]
  have hdq : (0 : ℚ) < q.den := by exact_mod_cast hd
  have n1q : ((2 : ℚ) ^ ilog2 q.num.natAbs q.num.natAbs) ≤ (q.num.natAbs : ℚ) := by
    exact_mod_cast n1
  have n2q : (q.num.natAbs : ℚ) < (2 : ℚ) ^ (ilog2 q.num.natAbs q.num.natAbs + 1) := by
    exact_mod_cast n2
  have d1q : ((2 : ℚ) ^ ilog2 q.den q.den) ≤ (q.den : ℚ) := by exact_mod_cast d1
  have d2q : (q.den : ℚ) < (2 : ℚ) ^ (ilog2 q.den q.den + 1) := by exact_mod_cast d2
  have h2 : (0 : ℚ) < 2 := by norm_num
  unfold binExp
  simp only
  split
  · rename_i hle
    refine ⟨hle, ?_⟩
    rw [habs, div_lt_iff₀ hdq]
    calc (q.num.natAbs : ℚ) < (2 : ℚ) ^ (ilog2 q.num.natAbs q.num.natAbs + 1) := n2q
      _ = (2 : ℚ) ^ ((ilog2 q.num.natAbs q.num.natAbs : Int) - (ilog2 q.den q.den : Int) + 1)
            * (2 : ℚ) ^ ilog2 q.den q.den := by
          rw [← zpow_natCast, ← zpow_natCast, ← zpow_add₀ (by norm_num)]
          congr 1
          push_cast
          ring
      _ ≤ _ := by
          apply mul_le_mul_of_nonneg_left d1q
          positivity
  · rename_i hnle
    push_neg at hnle
    constructor
    · rw [habs, le_div_iff₀ hdq]
      calc (2 : ℚ) ^ ((ilog2 q.num.natAbs q.num.natAbs : Int) - (ilog2 q.den q.den : Int) - 1)
            * (q.den : ℚ)
          ≤ (2 : ℚ) ^ ((ilog2 q.num.natAbs q.num.natAbs : Int) - (ilog2 q.den q.den : Int) - 1)
            * (2 : ℚ) ^ (ilog2 q.den q.den + 1) := by
            apply mul_le_mul_of_nonneg_left d2q.le
            positivity
        _ = (2 : ℚ) ^ ilog2 q.num.natAbs q.num.natAbs := by
            rw [← zpow_natCast, ← zpow_natCast, ← zpow_add₀ (by norm_num)]
            congr 1
            push_cast
            ring
        _ ≤ _ := n1q
    · simpa using hnle

theorem roundNE_err (r : ℚ) : |(roundNE r : ℚ) - r| ≤ 1 / 2 := by
  have h1 := Int.floor_le r
  have h2 := Int.lt_floor_add_one r
  unfold roundNE
  rw [abs_le]
  split_ifs <;> push_cast <;> constructor <;> linarith

theorem roundNE_intCast (k : Int) : roundNE (k : ℚ) = k := by
  simp [roundNE]

theorem round64_zero : round64 0 = 0 := by decide!

/-- Rounding to `float64` moves a value by at most half a unit in the last place. -/
theorem round64_err (q : ℚ) : |round64 q - q| ≤ |q| / 2 ^ 53 := by
  by_cases hq : q = 0
  · subst hq
    simp [round64_zero]
  obtain ⟨h1, _⟩ := binExp_spec q hq
  have hU : (0 : ℚ) < 2 ^ (binExp q - 52) := by positivity
  have hr := roundNE_err (q / 2 ^ (binExp q - 52))
  have e1 : round64 q - q =
      ((roundNE (q / 2 ^ (binExp q - 52)) : ℚ) - q / 2 ^ (binExp q - 52)) *
        2 ^ (binExp q - 52) := by
    unfold round64
    field_simp
  have e2 : (2 : ℚ) ^ (binExp q - 52) = 2 ^ binExp q / 2 ^ 52 := by
    rw [zpow_sub₀ (by norm_num)]
    norm_num
  rw [e1, abs_mul, abs_of_pos hU]
  calc |(roundNE (q / 2 ^ (binExp q - 52)) : ℚ) - q / 2 ^ (binExp q - 52)| *
        2 ^ (binExp q - 52)
      ≤ 1 / 2 * 2 ^ (binExp q - 52) := mul_le_mul_of_nonneg_right hr hU.le
    _ = 2 ^ binExp q / 2 ^ 53 := by rw [e2]; ring
    _ ≤ |q| / 2 ^ 53 := by
        apply div_le_div_of_nonneg_right h1
        positivity

theorem round64_bounds (q : ℚ) (hq : 0 ≤ q) :
    q * (1 - 1 / 2 ^ 53) ≤ round64 q ∧ round64 q ≤ q * (1 + 1 / 2 ^ 53) := by
  have h := round64_err q
  rw [abs_of_nonneg hq, abs_le] at h
  constructor <;> linarith [h.1, h.2]

theorem round64_nonneg (q : ℚ) (hq : 0 ≤ q) : 0 ≤ round64 q := by
  have h := (round64_bounds q hq).1
  have : 0 ≤ q * (1 - 1 / 2 ^ 53) := mul_nonneg hq (by norm_num)
  linarith

/-- A value on the grid of its binade is a `float64`. -/
theorem round64_of_grid (q : ℚ) (m : Int) (hm : q / 2 ^ (binExp q - 52) = m) :
    round64 q = q := by
  have hU : (2 : ℚ) ^ (binExp q - 52) ≠ 0 := by positivity
  unfold round64
  rw [hm, roundNE_intCast, ← hm]
  field_simp

/-- Integers below `2 ^ 53` in absolute value are `float64` values. -/
theorem round64_intCast (k : Int) (hk : |k| < 2 ^ 53) : round64 (k : ℚ) = k := by
  by_cases h0 : k = 0
  · subst h0
    simpa using round64_zero
  have hq : (k : ℚ) ≠ 0 := by exact_mod_cast h0
  obtain ⟨h1, _⟩ := binExp_spec (k : ℚ) hq
  have hkq : |(k : ℚ)| < 2 ^ (53 : Int) := by
    have : ((|k| : Int) : ℚ) < ((2 ^ 53 : Int) : ℚ) := by exact_mod_cast hk
    rw [Int.cast_abs] at this
    exact lt_of_lt_of_le this (by norm_num)
  have hlt : (2 : ℚ) ^ binExp (k : ℚ) < 2 ^ (53 : Int) := lt_of_le_of_lt h1 hkq
  have he : binExp (k : ℚ) < 53 := (zpow_lt_zpow_iff_right₀ (by norm_num)).mp hlt
  obtain ⟨n, hn⟩ : ∃ n : Nat, binExp (k : ℚ) - 52 = -(n : Int) :=
    ⟨(52 - binExp (k : ℚ)).toNat, by omega⟩
  apply round64_of_grid (k : ℚ) (k * 2 ^ n)
  rw [hn, zpow_neg, zpow_natCast]
  push_cast
  field_simp

theorem round64_natCast (n : Nat) (hn : n < 2 ^ 53) : round64 (n : ℚ) = n := by
  have := round64_intCast (n : Int) (by rw [abs_of_nonneg (by positivity)]; exact_mod_cast hn)
  simpa using this

/-- The last two operations of the rounding expression, `math.Floor(p + 0.5)` before the
floor: if `p` is close to `x` then the sum is close to `x + 1 / 2`. -/
theorem add_half_err (x p : ℚ) (hx : 0 ≤ x)
    (hp1 : x * (1 - 2 / 2 ^ 53) ≤ p) (hp2 : p ≤ x * (1 + 4 / 2 ^ 53)) :
    |round64 (p + 1 / 2) - (x + 1 / 2)| ≤ 6 / 2 ^ 53 * (x + 1 / 2) := by
  have hp : 0 ≤ p := le_trans (mul_nonneg hx (by norm_num)) hp1
  obtain ⟨h1, h2⟩ := round64_bounds (p + 1 / 2) (by linarith)
  rw [abs_le]
  constructor <;> nlinarith

/-- Error of `scaling * ow + 0.5` with `scaling = fh / oh`, all in `float64`. -/
theorem mul_form_err (h a b : ℚ) (hh : 0 < h) (ha : 0 < a) (hb : 0 < b) :
    |round64 (round64 (round64 (h / b) * a) + 1 / 2) - (h * a / b + 1 / 2)| ≤
      6 / 2 ^ 53 * (h * a / b + 1 / 2) := by
  have hα : 0 < h / b := div_pos hh hb
  obtain ⟨s1, s2⟩ := round64_bounds (h / b) hα.le
  have hs : 0 ≤ round64 (h / b) := round64_nonneg _ hα.le
  have hx : h * a / b = h / b * a := by ring
  have t1 : h / b * a * (1 - 1 / 2 ^ 53) ≤ round64 (h / b) * a := by
    have := mul_le_mul_of_nonneg_right s1 ha.le
    linarith
  have t2 : round64 (h / b) * a ≤ h / b * a * (1 + 1 / 2 ^ 53) := by
    have := mul_le_mul_of_nonneg_right s2 ha.le
    linarith
  obtain ⟨p1, p2⟩ := round64_bounds (round64 (h / b) * a) (mul_nonneg hs ha.le)
  have hxn : 0 ≤ h / b * a := by positivity
  rw [hx]
  apply add_half_err _ _ hxn
  · nlinarith
  · nlinarith

/-- Error of `fw / scaling + 0.5` with `scaling = fh / oh`, all in `float64`. -/
theorem div_form_err (w h b : ℚ) (hw : 0 < w) (hh : 0 < h) (hb : 0 < b) :
    |round64 (round64 (w / round64 (h / b)) + 1 / 2) - (w * b / h + 1 / 2)| ≤
      6 / 2 ^ 53 * (w * b / h + 1 / 2) := by
  have hα : 0 < h / b := div_pos hh hb
  obtain ⟨s1, s2⟩ := round64_bounds (h / b) hα.le
  have hs : 0 < round64 (h / b) := by
    have : 0 < h / b * (1 - 1 / 2 ^ 53) := mul_pos hα (by norm_num)
    linarith
  have hx : 0 < w * b / h := by positivity
  have hxα : w * b / h * (h / b) = w := by field_simp
  have q1 : w * b / h * (1 - 1 / 2 ^ 53) ≤ w / round64 (h / b) := by
    rw [le_div_iff₀ hs]
    have := mul_le_mul_of_nonneg_left s2 (mul_nonneg hx.le (by norm_num : (0 : ℚ) ≤ 1 - 1 / 2 ^ 53))
    nlinarith
  have q2 : w / round64 (h / b) ≤ w * b / h * (1 + 2 / 2 ^ 53) := by
    rw [div_le_iff₀ hs]
    have := mul_le_mul_of_nonneg_left s1 (mul_nonneg hx.le (by norm_num : (0 : ℚ) ≤ 1 + 2 / 2 ^ 53))
    nlinarith
  have hq : 0 ≤ w / round64 (h / b) := div_nonneg hw.le hs.le
  obtain ⟨p1, p2⟩ := round64_bounds (w / round64 (h / b)) hq
  apply add_half_err _ _ hx.le
  · nlinarith
  · nlinarith

/-- A value within `1 / (2 * c)` of the fraction `N / (2 * c)` has the floor of the fraction,
or one less when the fraction is an integer. -/
theorem floor_near_fraction (N c : Int) (hc : 0 < c) (y : ℚ)
    (hy : |y - (N : ℚ) / (2 * c)| < 1 / (2 * c)) :
    (¬ (2 * c ∣ N) → Int.floor y = N / (2 * c)) ∧
    (Int.floor y = N / (2 * c) ∨ Int.floor y = N / (2 * c) - 1) := by
  have hD : (0 : ℚ) < 2 * c := by exact_mod_cast (by omega : 0 < 2 * c)
  have hdiv := Int.emod_add_ediv N (2 * c)
  have hm0 := Int.emod_nonneg N (by omega : 2 * c ≠ 0)
  have hm1 := Int.emod_lt_of_pos N (by omega : 0 < 2 * c)
  have hN : (N : ℚ) = (N % (2 * c) : Int) + 2 * c * (N / (2 * c) : Int) := by
    exact_mod_cast hdiv.symm
  rw [abs_lt] at hy
  obtain ⟨hy1, hy2⟩ := hy
  have k2 : y * (2 * c) < N + 1 := by
    have e : (N : ℚ) / (2 * c) + 1 / (2 * c) = (N + 1) / (2 * c) := by ring
    exact (lt_div_iff₀ hD).mp (by linarith)
  have k1 : (N : ℚ) - 1 < y * (2 * c) := by
    have e : (N : ℚ) / (2 * c) - 1 / (2 * c) = (N - 1) / (2 * c) := by ring
    exact (div_lt_iff₀ hD).mp (by linarith)
  have hm0q : (0 : ℚ) ≤ ((N % (2 * c) : Int) : ℚ) := by exact_mod_cast hm0
  have hm1q : ((N % (2 * c) : Int) : ℚ) + 1 ≤ 2 * c := by exact_mod_cast hm1
  have up : y < ((N / (2 * c) : Int) : ℚ) + 1 := by
    apply lt_of_mul_lt_mul_right _ hD.le
    linarith
  have low : ((N / (2 * c) : Int) : ℚ) - 1 < y := by
    apply lt_of_mul_lt_mul_right _ hD.le
    linarith
  constructor
  · intro hnd
    have hmpos : 1 ≤ N % (2 * c) := by
      rcases eq_or_lt_of_le hm0 with h0 | h0
      · exact absurd (Int.dvd_of_emod_eq_zero h0.symm) hnd
      · omega
    have hmq : (1 : ℚ) ≤ ((N % (2 * c) : Int) : ℚ) := by exact_mod_cast hmpos
    rw [Int.floor_eq_iff]
    refine ⟨?_, up⟩
    apply le_of_mul_le_mul_right _ hD
    linarith
  · by_cases hge : ((N / (2 * c) : Int) : ℚ) ≤ y
    · left
      rw [Int.floor_eq_iff]
      exact ⟨hge, up⟩
    · right
      rw [Int.floor_eq_iff]
      push_neg at hge
      push_cast
      exact ⟨low.le, by linarith⟩

/-- The floor of `scaling * ow + 0.5` in `float64`, for `2 * h * a + b ≤ 2 ^ 50`: the exact
round-half-up of `h * a / b`, or possibly one less when `h * a / b` is half-way between two
integers. -/
theorem mul_form_floor (h a b : Nat) (hh : 0 < h) (ha : 0 < a) (hb : 0 < b)
    (hbound : 2 * (h * a) + b ≤ 2 ^ 50) :
    (¬ ((2 * b : Int) ∣ 2 * (h * a) + b) →
      Int.floor (round64 (round64 (round64 ((h : ℚ) / b) * a) + 1 / 2)) =
        (2 * ((h : Int) * a) + b) / (2 * b)) ∧
    (Int.floor (round64 (round64 (round64 ((h : ℚ) / b) * a) + 1 / 2)) =
        (2 * ((h : Int) * a) + b) / (2 * b) ∨
      Int.floor (round64 (round64 (round64 ((h : ℚ) / b) * a) + 1 / 2)) =
        (2 * ((h : Int) * a) + b) / (2 * b) - 1) := by
  have hhq : (0 : ℚ) < h := by exact_mod_cast hh
  have haq : (0 : ℚ) < a := by exact_mod_cast ha
  have hbq : (0 : ℚ) < b := by exact_mod_cast hb
  have herr := mul_form_err (h : ℚ) a b hhq haq hbq
  have hz : (h : ℚ) * a / b + 1 / 2 = ((2 * ((h : Int) * a) + b : Int) : ℚ) / (2 * (b : Int)) := by
    push_cast
    field_simp
    ring
  have hN : ((2 * ((h : Int) * a) + b : Int) : ℚ) ≤ 2 ^ 50 := by exact_mod_cast hbound
  rw [hz] at herr
  apply floor_near_fraction _ (b : Int) (by exact_mod_cast hb)
  refine lt_of_le_of_lt herr ?_
  have hb2 : (0 : ℚ) < 2 * ((b : Int) : ℚ) := by push_cast; linarith
  rw [← mul_div_assoc, div_lt_div_iff_of_pos_right hb2]
  have : (6 : ℚ) / 2 ^ 53 * 2 ^ 50 < 1 := by norm_num
  nlinarith

/-- The floor of `fw / scaling + 0.5` in `float64`, for `2 * w * b + h ≤ 2 ^ 50`: the exact
round-half-up of `w * b / h`, or possibly one less when `w * b / h` is half-way between two
integers. -/
theorem div_form_floor (w h b : Nat) (hw : 0 < w) (hh : 0 < h) (hb : 0 < b)
    (hbound : 2 * (w * b) + h ≤ 2 ^ 50) :
    (¬ ((2 * h : Int) ∣ 2 * (w * b) + h) →
      Int.floor (round64 (round64 ((w : ℚ) / round64 ((h : ℚ) / b)) + 1 / 2)) =
        (2 * ((w : Int) * b) + h) / (2 * h)) ∧
    (Int.floor (round64 (round64 ((w : ℚ) / round64 ((h : ℚ) / b)) + 1 / 2)) =
        (2 * ((w : Int) * b) + h) / (2 * h) ∨
      Int.floor (round64 (round64 ((w : ℚ) / round64 ((h : ℚ) / b)) + 1 / 2)) =
        (2 * ((w : Int) * b) + h) / (2 * h) - 1) := by
  have hwq : (0 : ℚ) < w := by exact_mod_cast hw
  have hhq : (0 : ℚ) < h := by exact_mod_cast hh
  have hbq : (0 : ℚ) < b := by exact_mod_cast hb
  have herr := div_form_err (w : ℚ) h b hwq hhq hbq
  have hz : (w : ℚ) * b / h + 1 / 2 = ((2 * ((w : Int) * b) + h : Int) : ℚ) / (2 * (h : Int)) := by
    push_cast
    field_simp
    ring
  have hN : ((2 * ((w : Int) * b) + h : Int) : ℚ) ≤ 2 ^ 50 := by exact_mod_cast hbound
  rw [hz] at herr
  apply floor_near_fraction _ (h : Int) (by exact_mod_cast hh)
  refine lt_of_le_of_lt herr ?_
  have hb2 : (0 : ℚ) < 2 * ((h : Int) : ℚ) := by push_cast; linarith
  rw [← mul_div_assoc, div_lt_div_iff_of_pos_right hb2]
  have : (6 : ℚ) / 2 ^ 53 * 2 ^ 50 < 1 := by norm_num
  nlinarith

/-- The comparison `ow / oh > fw / fh` in `float64` is the exact comparison, for
`a * h + w * b < 2 ^ 53`. -/
theorem compare_exact (a b w h : Nat) (hb : 0 < b) (hh : 0 < h)
    (hbound : a * h + w * b < 2 ^ 53) :
    round64 ((a : ℚ) / b) > round64 ((w : ℚ) / h) ↔ w * b < a * h := by
  have hbq : (0 : ℚ) < b := by exact_mod_cast hb
  have hhq : (0 : ℚ) < h := by exact_mod_cast hh
  have key : ∀ p q r s : Nat, 0 < q → 0 < s → p * s + r * q < 2 ^ 53 → r * q < p * s →
      round64 ((r : ℚ) / s) < round64 ((p : ℚ) / q) := by
    intro p q r s hq hs hbd hlt
    have hqq : (0 : ℚ) < q := by exact_mod_cast hq
    have hsq : (0 : ℚ) < s := by exact_mod_cast hs
    obtain ⟨p1, _⟩ := round64_bounds ((p : ℚ) / q) (by positivity)
    obtain ⟨_, r2⟩ := round64_bounds ((r : ℚ) / s) (by positivity)
    have hgap : (r : ℚ) * q + 1 ≤ p * s := by exact_mod_cast hlt
    have hbdq : (p : ℚ) * s + r * q + 1 ≤ 2 ^ 53 := by exact_mod_cast hbd
    have e1 : (p : ℚ) / q = p * s / (q * s) := by field_simp; ring
    have e2 : (r : ℚ) / s = r * q / (q * s) := by field_simp; ring
    have hqs : (0 : ℚ) < q * s := by positivity
    refine lt_of_le_of_lt r2 (lt_of_lt_of_le ?_ p1)
    rw [e1, e2, div_mul_eq_mul_div, div_mul_eq_mul_div, div_lt_div_iff_of_pos_right hqs]
    nlinarith
  constructor
  · intro hgt
    by_contra hnot
    rcases Nat.lt_or_ge (a * h) (w * b) with hlt | hge
    · have := key w h a b hh hb (by omega) hlt
      exact absurd hgt (not_lt.mpr this.le)
    · have heq : a * h = w * b := by omega
      have : (a : ℚ) / b = (w : ℚ) / h := by
        rw [div_eq_div_iff hbq.ne.symm hhq.ne.symm]
        exact_mod_cast heq
      rw [this] at hgt
      exact lt_irrefl _ hgt
  · intro hlt
    exact key a b w h hb hh hbound hlt

theorem binExp_eq (q : ℚ) (e : Int) (h1 : (2 : ℚ) ^ e ≤ |q|) (h2 : |q| < (2 : ℚ) ^ (e + 1)) :
    binExp q = e := by
  have hq : q ≠ 0 := by
    intro h0
    rw [h0, abs_zero] at h1
    exact absurd h1 (not_le.mpr (by positivity))
  obtain ⟨s1, s2⟩ := binExp_spec q hq
  have a1 : binExp q < e + 1 :=
    (zpow_lt_zpow_iff_right₀ (by norm_num)).mp (lt_of_le_of_lt s1 h2)
  have a2 : e < binExp q + 1 :=
    (zpow_lt_zpow_iff_right₀ (by norm_num)).mp (lt_of_le_of_lt h1 s2)
  omega

theorem roundNE_ge_floor (r : ℚ) : Int.floor r ≤ roundNE r := by
  unfold roundNE
  split_ifs <;> omega

/-- A positive value does not round below the start of its binade. -/
theorem round64_ge_binade (q : ℚ) (e : Int) (h1 : (2 : ℚ) ^ e ≤ q) (h2 : q < (2 : ℚ) ^ (e + 1)) :
    (2 : ℚ) ^ e ≤ round64 q := by
  have hpos : (0 : ℚ) < q := lt_of_lt_of_le (by positivity) h1
  have he := binExp_eq q e (by rwa [abs_of_pos hpos]) (by rwa [abs_of_pos hpos])
  have hU : (0 : ℚ) < 2 ^ (e - 52) := by positivity
  unfold round64
  rw [he]
  have hr : ((2 ^ 52 : Int) : ℚ) ≤ q / 2 ^ (e - 52) := by
    rw [le_div_iff₀ hU]
    have : ((2 ^ 52 : Int) : ℚ) * 2 ^ (e - 52) = 2 ^ e := by
      rw [zpow_sub₀ (by norm_num)]
      norm_num
      field_simp
    rw [this]
    exact h1
  have hf : (2 ^ 52 : Int) ≤ roundNE (q / 2 ^ (e - 52)) :=
    le_trans (Int.le_floor.mpr hr) (roundNE_ge_floor _)
  have hfq : ((2 ^ 52 : Int) : ℚ) ≤ (roundNE (q / 2 ^ (e - 52)) : ℚ) := by exact_mod_cast hf
  calc (2 : ℚ) ^ e = ((2 ^ 52 : Int) : ℚ) * 2 ^ (e - 52) := by
        rw [zpow_sub₀ (by norm_num)]
        norm_num
        field_simp
    _ ≤ _ := mul_le_mul_of_nonneg_right hfq hU.le

theorem round64_of_binade (q : ℚ) (e : Int) (h1 : (2 : ℚ) ^ e ≤ q) (h2 : q < (2 : ℚ) ^ (e + 1)) :
    round64 q = (roundNE (q / 2 ^ (e - 52)) : ℚ) * 2 ^ (e - 52) := by
  have hpos : (0 : ℚ) < q := lt_of_lt_of_le (by positivity) h1
  have he := binExp_eq q e (by rwa [abs_of_pos hpos]) (by rwa [abs_of_pos hpos])
  unfold round64
  rw [he]

theorem round64_ge_of_one_le (q : ℚ) (hq : 1 ≤ q) : 1 ≤ round64 q := by
  have hq0 : q ≠ 0 := by linarith
  obtain ⟨s1, s2⟩ := binExp_spec q hq0
  rw [abs_of_pos (by linarith)] at s1 s2
  have he : (0 : Int) < binExp q + 1 :=
    (zpow_lt_zpow_iff_right₀ (by norm_num : (1 : ℚ) < 2)).mp
      (lt_of_le_of_lt (by simpa using hq) s2)
  have := round64_ge_binade q (binExp q) s1 s2
  have h2 : (1 : ℚ) ≤ 2 ^ binExp q := by
    have : (2 : ℚ) ^ (0 : Int) ≤ 2 ^ binExp q :=
      zpow_le_zpow_right₀ (by norm_num) (by omega)
    simpa using this
  linarith

/-- Just below 1 the nearest `float64` is 1, the tie included. -/
theorem round64_ge_one (q : ℚ) (hq : 1 - 1 / 2 ^ 54 ≤ q) : 1 ≤ round64 q := by
  rcases le_or_lt 1 q with h1 | h1
  · exact round64_ge_of_one_le q h1
  have hb := round64_of_binade q (-1) (by norm_num; linarith) (by norm_num; linarith)
  have hU : (2 : ℚ) ^ ((-1 : Int) - 52) = 1 / 2 ^ 53 := by
    rw [show ((-1 : Int) - 52) = -53 by norm_num, zpow_neg]
    norm_num
  rw [hb, hU]
  have hr1 : ((2 ^ 53 - 1 : Int) : ℚ) + 1 / 2 ≤ q / (1 / 2 ^ 53) := by
    rw [le_div_iff₀ (by norm_num)]
    push_cast
    linarith
  have hr2 : q / (1 / 2 ^ 53) < ((2 ^ 53 - 1 : Int) : ℚ) + 1 := by
    rw [div_lt_iff₀ (by norm_num)]
    push_cast
    linarith
  have hfl : Int.floor (q / (1 / 2 ^ 53)) = 2 ^ 53 - 1 := by
    rw [Int.floor_eq_iff]
    exact ⟨by linarith, hr2⟩
  have hrn : roundNE (q / (1 / 2 ^ 53)) = 2 ^ 53 := by
    unfold roundNE
    rw [hfl]
    split_ifs with c1 c2 c3
    · exfalso
      linarith
    · norm_num
    · exact absurd c3 (by decide)
    · norm_num
  rw [hrn]
  norm_num

/-- Just below one half the nearest `float64` is not below the last `float64` before one
half. -/
theorem round64_ge_half (t : ℚ) (ht : 1 / 2 - 1 / 2 ^ 54 ≤ t) :
    1 / 2 - 1 / 2 ^ 54 ≤ round64 t := by
  rcases le_or_lt (1 / 2) t with h1 | h1
  · have hq0 : t ≠ 0 := by linarith
    obtain ⟨s1, s2⟩ := binExp_spec t hq0
    rw [abs_of_pos (by linarith)] at s1 s2
    have he : (-1 : Int) < binExp t + 1 :=
      (zpow_lt_zpow_iff_right₀ (by norm_num : (1 : ℚ) < 2)).mp
        (lt_of_le_of_lt (by norm_num; linarith) s2)
    have := round64_ge_binade t (binExp t) s1 s2
    have h2 : (1 / 2 : ℚ) ≤ 2 ^ binExp t := by
      have : (2 : ℚ) ^ (-1 : Int) ≤ 2 ^ binExp t :=
        zpow_le_zpow_right₀ (by norm_num) (by omega)
      norm_num at this
      linarith
    linarith
  have hb := round64_of_binade t (-2) (by norm_num; linarith) (by norm_num; linarith)
  have hU : (2 : ℚ) ^ ((-2 : Int) - 52) = 1 / 2 ^ 54 := by
    rw [show ((-2 : Int) - 52) = -54 by norm_num, zpow_neg]
    norm_num
  rw [hb, hU]
  have hr1 : ((2 ^ 53 - 1 : Int) : ℚ) ≤ t / (1 / 2 ^ 54) := by
    rw [le_div_iff₀ (by norm_num)]
    push_cast
    linarith
  have hf : (2 ^ 53 - 1 : Int) ≤ roundNE (t / (1 / 2 ^ 54)) :=
    le_trans (Int.le_floor.mpr hr1) (roundNE_ge_floor _)
  have hfq : ((2 ^ 53 - 1 : Int) : ℚ) ≤ (roundNE (t / (1 / 2 ^ 54)) : ℚ) := by exact_mod_cast hf
  have : ((2 ^ 53 - 1 : Int) : ℚ) * (1 / 2 ^ 54) ≤
      (roundNE (t / (1 / 2 ^ 54)) : ℚ) * (1 / 2 ^ 54) :=
    mul_le_mul_of_nonneg_right hfq (by norm_num)
  push_cast at this
  linarith

/-- At the aspect-scaled value one half, `scaling * ow + 0.5` in `float64` is at least 1. -/
theorem mul_form_half (h a : Nat) (hh : 0 < h) (ha : 0 < a) :
    1 ≤ round64 (round64 (round64 ((h : ℚ) / (2 * (h * a) : Nat)) * a) + 1 / 2) := by
  have hhq : (0 : ℚ) < h := by exact_mod_cast hh
  have haq : (0 : ℚ) < a := by exact_mod_cast ha
  have hα : (h : ℚ) / (2 * (h * a) : Nat) = 1 / (2 * a) := by
    push_cast
    field_simp
    ring
  rw [hα]
  obtain ⟨s1, _⟩ := round64_bounds (1 / (2 * (a : ℚ))) (by positivity)
  have t1 : 1 / 2 - 1 / 2 ^ 54 ≤ round64 (1 / (2 * (a : ℚ))) * a := by
    have := mul_le_mul_of_nonneg_right s1 haq.le
    have e : 1 / (2 * (a : ℚ)) * (1 - 1 / 2 ^ 53) * a = 1 / 2 - 1 / 2 ^ 54 := by
      field_simp
      ring
    linarith
  have p1 := round64_ge_half _ t1
  apply round64_ge_one
  linarith

/-! ## Conversions and rounding -/

theorem intOfFloat_intCast (n : Int) : intOfFloat (n : ℚ) = n := by
  unfold intOfFloat
  split <;> simp

theorem intOfFloat_natCast (n : Nat) : intOfFloat (n : ℚ) = n := by
  have := intOfFloat_intCast (n : Int)
  simpa using this

theorem uintOfInt_of_nonneg {x : Int} (h0 : 0 ≤ x) (h1 : x < 2 ^ 64) :
    uintOfInt x = x.toNat := by
  unfold uintOfInt
  rw [Int.emod_eq_of_lt h0 h1]

theorem uintOfInt_natCast {n : Nat} (h : n < 2 ^ 64) : uintOfInt (n : Int) = n := by
  rw [uintOfInt_of_nonneg (Int.ofNat_nonneg n) (by exact_mod_cast h)]
  simp

/-- Round-half-up of a quotient of integers, as an integer division. -/
theorem floor_div_add_half (a : Int) (b : Nat) (hb : 0 < b) :
    Int.floor ((a : ℚ) / (b : ℚ) + 1 / 2) = (2 * a + b) / (2 * b) := by
  have hbq : (b : ℚ) ≠ 0 := by positivity
  have h : (a : ℚ) / (b : ℚ) + 1 / 2 = ((2 * a + b : Int) : ℚ) / ((2 * b : Nat) : ℚ) := by
    push_cast
    field_simp
    ring
  rw [h, Rat.floor_intCast_div_natCast]
  push_cast
  rfl

/-- Round-half-up of `h * a / b` computed in integers. -/
theorem floor_mul_div_add_half (h : Int) (a b : Nat) (hb : 0 < b) :
    Int.floor ((h : ℚ) * a / b + 1 / 2) = (2 * (h * a) + b) / (2 * b) := by
  have := floor_div_add_half (h * a) b hb
  push_cast at this
  exact this

/-- Bounds of the round-half-up quotient `a = (2 * p + q) / (2 * q)`. -/
theorem half_up_bounds (p q : Int) (hq : 0 < q) :
    2 * ((2 * p + q) / (2 * q) * q) ≤ 2 * p + q ∧
    2 * p - q < 2 * ((2 * p + q) / (2 * q) * q) := by
  have h2q : (0 : Int) < 2 * q := by omega
  have h1 := Int.ediv_mul_le (2 * p + q) (ne_of_gt h2q)
  have h2 := Int.lt_ediv_add_one_mul_self (2 * p + q) h2q
  have e1 : (2 * p + q) / (2 * q) * (2 * q) = 2 * ((2 * p + q) / (2 * q) * q) := by ring
  have e2 : ((2 * p + q) / (2 * q) + 1) * (2 * q) =
      2 * ((2 * p + q) / (2 * q) * q) + 2 * q := by ring
  rw [e1] at h1
  rw [e2] at h2
  constructor <;> omega

/-- The round-half-up quotient is at least 1 exactly from one half on. -/
theorem one_le_half_up_iff (p q : Int) (hq : 0 < q) :
    1 ≤ (2 * p + q) / (2 * q) ↔ q ≤ 2 * p := by
  rw [Int.le_ediv_iff_mul_le (by omega)]
  constructor <;> intro h <;> omega

/-- The round-half-up quotient is exact precisely on multiples of the divisor. -/
theorem half_up_exact_iff (p q : Int) (hq : 0 < q) :
    (2 * p + q) / (2 * q) * q = p ↔ q ∣ p := by
  constructor
  · intro h
    exact Dvd.intro_left _ h
  · rintro ⟨k, rfl⟩
    have hk : (2 * (q * k) + q) / (2 * q) = k := by
      have e : 2 * (q * k) + q = q + 2 * q * k := by ring
      rw [e, Int.add_mul_ediv_left _ _ (by omega), Int.ediv_eq_zero_of_lt hq.le (by omega)]
      simp
    rw [hk]
    ring

/-! ## The three branches of the geometry -/

theorem sizes_lt_of_bound {h a b : Nat} (hh : 0 < h) (ha : 0 < a)
    (hbound : 2 * (h * a) + b ≤ 2 ^ 50) : h < 2 ^ 53 ∧ a < 2 ^ 53 ∧ b < 2 ^ 53 := by
  have h1 : h ≤ h * a := Nat.le_mul_of_pos_right h ha
  have h2 : a ≤ h * a := Nat.le_mul_of_pos_left a hh
  refine ⟨?_, ?_, ?_⟩ <;> omega

theorem round64_natCast_int (n : Nat) (hn : n < 2 ^ 53) : round64 (((n : Nat) : Int) : ℚ) = n := by
  rw [Int.cast_natCast]
  exact round64_natCast n hn

/-- With both dimensions set, `w` and `h` are not assigned. -/
theorem geometry_dims_of_set (iw ih : Nat) (w h : Int) (hw : w ≠ 0) (hh : h ≠ 0) :
    (geometry iw ih w h).w = w ∧ (geometry iw ih w h).h = h := by
  simp only [geometry, if_neg hw, if_neg hh]
  split_ifs <;> exact ⟨rfl, rfl⟩

theorem geometry_width_unset (iw ih h : Nat) (hh : 0 < h) (hiw : 0 < iw)
    (hbound : 2 * (h * iw) + ih ≤ 2 ^ 50) :
    geometry iw ih 0 h = ⟨derivedDim h iw ih, h, none⟩ := by
  obtain ⟨b1, b2, b3⟩ := sizes_lt_of_bound hh hiw hbound
  simp only [geometry, if_true, intOfFloat_intCast, round64_natCast_int h b1,
    round64_natCast iw b2, round64_natCast ih b3, derivedDim]

theorem geometry_height_unset (iw ih w : Nat) (hw : 0 < w) (hih : 0 < ih)
    (hbound : 2 * (w * ih) + iw ≤ 2 ^ 50) :
    geometry iw ih w 0 = ⟨w, derivedDim w ih iw, none⟩ := by
  obtain ⟨b1, b2, b3⟩ := sizes_lt_of_bound hw hih hbound
  have hw0 : ((w : Nat) : Int) ≠ 0 := by omega
  simp only [geometry, if_neg hw0, if_true, intOfFloat_intCast, round64_natCast_int w b1,
    round64_natCast iw b3, round64_natCast ih b2, derivedDim]

/-- The derived dimension in `float64`: the exact round-half-up, or possibly one less on a
tie. -/
theorem derivedDim_spec (h a b : Nat) (hh : 0 < h) (ha : 0 < a) (hb : 0 < b)
    (hbound : 2 * (h * a) + b ≤ 2 ^ 50) :
    0 ≤ derivedDim h a b ∧
    (¬ ((2 * b : Int) ∣ 2 * (h * a) + b) →
      derivedDim h a b = (2 * ((h : Int) * a) + b) / (2 * b)) ∧
    (derivedDim h a b = (2 * ((h : Int) * a) + b) / (2 * b) ∨
      derivedDim h a b = (2 * ((h : Int) * a) + b) / (2 * b) - 1) := by
  obtain ⟨f1, f2⟩ := mul_form_floor h a b hh ha hb hbound
  refine ⟨?_, f1, f2⟩
  unfold derivedDim
  apply Int.floor_nonneg.mpr
  apply round64_nonneg
  have := round64_nonneg (round64 ((h : ℚ) / b) * a)
    (mul_nonneg (round64_nonneg _ (by positivity)) (by positivity))
  linarith

/-- The pre-crop width in `float64`: the exact round-half-up, or possibly one less on a
tie. -/
theorem preCropWidth_spec (w h b : Nat) (hw : 0 < w) (hh : 0 < h) (hb : 0 < b)
    (hbound : 2 * (w * b) + h ≤ 2 ^ 50) :
    0 ≤ preCropWidth w h b ∧
    (¬ ((2 * h : Int) ∣ 2 * (w * b) + h) →
      preCropWidth w h b = (2 * ((w : Int) * b) + h) / (2 * h)) ∧
    (preCropWidth w h b = (2 * ((w : Int) * b) + h) / (2 * h) ∨
      preCropWidth w h b = (2 * ((w : Int) * b) + h) / (2 * h) - 1) := by
  obtain ⟨f1, f2⟩ := div_form_floor w h b hw hh hb hbound
  refine ⟨?_, f1, f2⟩
  unfold preCropWidth
  apply Int.floor_nonneg.mpr
  apply round64_nonneg
  have := round64_nonneg ((w : ℚ) / round64 ((h : ℚ) / b))
    (div_nonneg (by positivity) (round64_nonneg _ (by positivity)))
  linarith

theorem preCropWidth_le (w h b : Nat) (hw : 0 < w) (hh : 0 < h) (hb : 0 < b)
    (hbound : 2 * (w * b) + h ≤ 2 ^ 50) : preCropWidth w h b ≤ 2 ^ 50 := by
  obtain ⟨_, _, f2⟩ := preCropWidth_spec w h b hw hh hb hbound
  have hr : (2 * ((w : Int) * b) + h) / (2 * h) ≤ 2 * ((w : Int) * b) + h :=
    Int.ediv_le_self _ (by positivity)
  have hN : 2 * ((w : Int) * b) + h ≤ 2 ^ 50 := by exact_mod_cast hbound
  rcases f2 with e | e <;> omega

theorem geometry_both_set (iw ih w h : Nat) (hw : 0 < w) (hh : 0 < h) (hih : 0 < ih)
    (hb1 : 2 * (w * ih) + h ≤ 2 ^ 50) (hb2 : iw * h + w * ih < 2 ^ 53) :
    geometry iw ih w h =
      if w * ih < iw * h ∧ (iw : Int) - preCropWidth w h ih ≥ 1 then
        ⟨w, h, some ⟨(preCropWidth w h ih).toNat, ih,
          ((iw : Int) - preCropWidth w h ih) / 2, 0⟩⟩
      else ⟨w, h, none⟩ := by
  obtain ⟨b1, b2, _⟩ := sizes_lt_of_bound hw hih hb1
  have b3 : h < 2 ^ 53 := by omega
  have b4 : iw < 2 ^ 53 := by
    have : iw ≤ iw * h := Nat.le_mul_of_pos_right iw hh
    omega
  have hF0 := (preCropWidth_spec w h ih hw hh hih hb1).1
  have hF1 := preCropWidth_le w h ih hw hh hih hb1
  have hw0 : ((w : Nat) : Int) ≠ 0 := by omega
  have hh0 : ((h : Nat) : Int) ≠ 0 := by omega
  have hsub : round64 ((iw : ℚ) - ((preCropWidth w h ih : Int) : ℚ)) =
      (((iw : Int) - preCropWidth w h ih : Int) : ℚ) := by
    have := round64_intCast ((iw : Int) - preCropWidth w h ih) (by
      rw [abs_lt]
      constructor <;> omega)
    rw [← this]
    push_cast
    rfl
  have hcmp := compare_exact iw ih w h hih hh hb2
  simp only [geometry, if_neg hw0, if_neg hh0, round64_natCast_int w b1,
    round64_natCast_int h b3, round64_natCast iw b4, round64_natCast ih b2, uintOfFloat]
  rw [show Int.floor (round64 (round64 ((w : ℚ) / round64 ((h : ℚ) / ih)) + 1 / 2)) =
    preCropWidth w h ih from rfl, hsub, intOfFloat_intCast, intOfFloat_intCast,
    intOfFloat_natCast]
  by_cases c1 : w * ih < iw * h
  · have c1' : round64 ((iw : ℚ) / ih) > round64 ((w : ℚ) / h) := hcmp.mpr c1
    by_cases c2 : (iw : Int) - preCropWidth w h ih ≥ 1
    · simp only [c1, c1', c2, and_self, if_true]
      rw [uintOfInt_of_nonneg hF0 (by omega), uintOfInt_natCast (by omega),
        Int.tdiv_eq_ediv (by omega) (by decide)]
    · simp [c1, c1', c2]
  · have c1' : ¬ round64 ((iw : ℚ) / ih) > round64 ((w : ℚ) / h) := fun hc => c1 (hcmp.mp hc)
    simp [c1, c1']

/-! ## Integer facts about the rounded quotient -/

theorem floor_mul_div_add_half_nat (h a b : Nat) (hb : 0 < b) :
    Int.floor ((h : ℚ) * a / b + 1 / 2) = (2 * ((h : Int) * a) + b) / (2 * b) := by
  have := floor_mul_div_add_half (h : Int) a b hb
  simpa using this

/-- On a tie above one half the rounded quotient is at least 2. -/
theorem two_le_of_tie (p c : Int) (hc : 0 < c) (hlt : c < 2 * p)
    (htie : 2 * c ∣ 2 * p + c) : 2 ≤ (2 * p + c) / (2 * c) := by
  obtain ⟨k, hk⟩ := htie
  rw [hk, Int.mul_ediv_cancel_left _ (by omega)]
  by_contra hlt2
  have hk1 : k ≤ 1 := by omega
  have : 2 * c * k ≤ 2 * c * 1 := Int.mul_le_mul_of_nonneg_left hk1 (by omega)
  omega

/-- A value that is the rounded quotient, or one less on a tie, is at least 1 exactly from one
half on, provided it is at least 1 at one half. -/
theorem one_le_iff_of_near (p c F : Int) (hc : 0 < c)
    (hnt : ¬ (2 * c ∣ 2 * p + c) → F = (2 * p + c) / (2 * c))
    (hor : F = (2 * p + c) / (2 * c) ∨ F = (2 * p + c) / (2 * c) - 1)
    (hhalf : c = 2 * p → 1 ≤ F) : 1 ≤ F ↔ c ≤ 2 * p := by
  have hr := one_le_half_up_iff p c hc
  constructor
  · intro h1
    apply hr.mp
    rcases hor with e | e <;> omega
  · intro hle
    rcases eq_or_lt_of_le hle with heq | hlt
    · exact hhalf heq
    · by_cases htie : 2 * c ∣ 2 * p + c
      · have := two_le_of_tie p c hc hlt htie
        rcases hor with e | e <;> omega
      · rw [hnt htie]
        exact hr.mpr hle

/-- A value that is the rounded quotient, or one less on a tie, is within half the divisor of
the exact quotient, and exact precisely on multiples of the divisor. -/
theorem near_quotient (p c F : Int) (hc : 0 < c)
    (hnt : ¬ (2 * c ∣ 2 * p + c) → F = (2 * p + c) / (2 * c))
    (hor : F = (2 * p + c) / (2 * c) ∨ F = (2 * p + c) / (2 * c) - 1) :
    2 * |F * c - p| ≤ c ∧ (F * c = p ↔ c ∣ p) := by
  rcases hor with e | e
  · have hb := half_up_bounds p c hc
    rw [e]
    refine ⟨?_, half_up_exact_iff p c hc⟩
    rcases abs_cases ((2 * p + c) / (2 * c) * c - p) with ⟨he, _⟩ | ⟨he, _⟩ <;> rw [he] <;> omega
  · have htie : 2 * c ∣ 2 * p + c := by
      by_contra hn
      have := hnt hn
      omega
    obtain ⟨k, hk⟩ := htie
    have hr : (2 * p + c) / (2 * c) = k := by
      rw [hk, Int.mul_ediv_cancel_left _ (by omega)]
    rw [hr] at e
    have hFc : F * c = k * c - c := by rw [e]; ring
    have hkc : 2 * (k * c) = 2 * p + c := by rw [hk]; ring
    constructor
    · rcases abs_cases (F * c - p) with ⟨he, _⟩ | ⟨he, _⟩ <;> rw [he] <;> omega
    · constructor
      · intro h1
        omega
      · rintro ⟨m, hm⟩
        exfalso
        have h2 : c * (2 * k) = c * (2 * m + 1) := by rw [hm] at hkc; linarith
        have := Int.eq_of_mul_eq_mul_left (by omega) h2
        omega

/-- At the aspect-scaled value one half the derived dimension is 1 or more. -/
theorem derivedDim_half (h a : Nat) (hh : 0 < h) (ha : 0 < a) :
    1 ≤ derivedDim h a (2 * (h * a)) := by
  unfold derivedDim
  exact Int.le_floor.mpr (by simpa using mul_form_half h a hh ha)

theorem round64_half : round64 (1 / 2) = 1 / 2 := by decide!

theorem round64_one : round64 1 = 1 := by decide!

/-- At the pre-crop value one half the pre-crop width is 1. -/
theorem preCropWidth_half (w b : Nat) (hw : 0 < w) (hb : 0 < b) (hlt : 2 * (w * b) < 2 ^ 53) :
    preCropWidth w (2 * (w * b)) b = 1 := by
  have hwq : (w : ℚ) ≠ 0 := by positivity
  have hbq : (b : ℚ) ≠ 0 := by positivity
  have h2w : 2 * w < 2 ^ 53 := by
    have : w ≤ w * b := Nat.le_mul_of_pos_right w hb
    omega
  have e1 : ((2 * (w * b) : Nat) : ℚ) / b = ((2 * w : Nat) : ℚ) := by
    push_cast
    field_simp
    ring
  have e2 : (w : ℚ) / ((2 * w : Nat) : ℚ) = 1 / 2 := by
    push_cast
    field_simp
    ring
  unfold preCropWidth
  rw [e1, round64_natCast _ h2w, e2, round64_half]
  norm_num [round64_one]

/-! ## The trace of `resize` -/

theorem scaleDims_append (s t : List Event) : scaleDims (s ++ t) = scaleDims s ++ scaleDims t := by
  induction s with
  | nil => rfl
  | cons e s ih => cases e <;> simp [scaleDims, ih]

theorem cropCalls_append (s t : List Event) : cropCalls (s ++ t) = cropCalls s ++ cropCalls t := by
  induction s with
  | nil => rfl
  | cons e s ih => cases e <;> simp [cropCalls, ih]

theorem scaleDims_cropEvents (c : Option CropArgs) : scaleDims (cropEvents c) = [] := by
  cases c <;> rfl

theorem cropCalls_cropEvents (c : Option CropArgs) : cropCalls (cropEvents c) = c.toList := by
  cases c <;> rfl

/-- Once the source is decoded, the trace of `resize` starts with the decode, the two size
queries, the crop of the geometry (if any) and then the scale step with the geometry's
dimensions. -/
theorem resize_trace_of_read (E : Engine) (src format : String) (w h : Int) (compression : Nat)
    (hwh : ¬ (w = 0 ∧ h = 0)) (hread : E.readImage src = none) :
    ∃ rest, (resize E src format w h compression).2 =
      [Event.lock, Event.init, Event.newMagickWand, Event.readImage src,
        Event.getImageWidth, Event.getImageHeight]
      ++ cropEvents (geometry (E.getImageWidth src) (E.getImageHeight src) w h).crop
      ++ Event.resizeImage
          (uintOfInt (geometry (E.getImageWidth src) (E.getImageHeight src) w h).w)
          (uintOfInt (geometry (E.getImageWidth src) (E.getImageHeight src) w h).h) :: rest
      ∧ scaleDims rest = [] ∧ cropCalls rest = [] := by
  simp only [resize, if_neg hwh, hread, List.append_assoc, List.cons_append, List.nil_append]
  split
  · exact ⟨_, rfl, rfl, rfl⟩
  · split
    · exact ⟨_, rfl, rfl, rfl⟩
    · split
      · exact ⟨_, rfl, rfl, rfl⟩
      · split
        · exact ⟨_, rfl, rfl, rfl⟩
        · split
          · exact ⟨_, rfl, rfl, rfl⟩
          · exact ⟨_, rfl, rfl, rfl⟩

theorem resize_scaleDims (E : Engine) (src format : String) (w h : Int) (compression : Nat)
    (hwh : ¬ (w = 0 ∧ h = 0)) (hread : E.readImage src = none) :
    scaleDims (resize E src format w h compression).2 =
      [(uintOfInt (geometry (E.getImageWidth src) (E.getImageHeight src) w h).w,
        uintOfInt (geometry (E.getImageWidth src) (E.getImageHeight src) w h).h)] := by
  obtain ⟨rest, ht, hs, _⟩ := resize_trace_of_read E src format w h compression hwh hread
  rw [ht]
  simp [scaleDims_append, scaleDims_cropEvents, scaleDims, hs]

theorem resize_cropCalls (E : Engine) (src format : String) (w h : Int) (compression : Nat)
    (hwh : ¬ (w = 0 ∧ h = 0)) (hread : E.readImage src = none) :
    cropCalls (resize E src format w h compression).2 =
      (geometry (E.getImageWidth src) (E.getImageHeight src) w h).crop.toList := by
  obtain ⟨rest, ht, _, hc⟩ := resize_trace_of_read E src format w h compression hwh hread
  rw [ht]
  simp [cropCalls_append, cropCalls_cropEvents, cropCalls, hc]

/-! ## Validation of the request -/

/-- C1: with `w = 0` and `h = 0`, `resize` returns an error and the empty path, and the only
calls it makes are the lock and the deferred unlock: no decode, crop, scale, format, quality
or write step is performed on that call. -/
theorem resize_both_unset (E : Engine) (src format : String) (compression : Nat) :
    (resize E src format 0 0 compression).1.err.isSome = true ∧
    (resize E src format 0 0 compression).1.path = "" ∧
    (resize E src format 0 0 compression).2 = [Event.lock, Event.unlock] ∧
    ∀ e ∈ (resize E src format 0 0 compression).2, e.isEngineStep = false := by
  have h : resize E src format 0 0 compression =
      (⟨"", some "width and height of image cannot both be unset"⟩,
        [Event.lock, Event.unlock]) := by
    simp [resize]
  rw [h]
  refine ⟨rfl, rfl, rfl, ?_⟩
  intro e he
  simp only [List.mem_cons, List.mem_singleton, List.not_mem_nil, or_false] at he
  rcases he with rfl | rfl <;> rfl

/-! ## Dimensions with one dimension unset -/

/-- The scale step of a request with the width unset. -/
theorem scaleDims_width_unset (E : Engine) (src format : String) (compression : Nat)
    (hread : E.readImage src = none)
    (how : 0 < E.getImageWidth src) (hoh : 0 < E.getImageHeight src)
    (h : Nat) (hh : 0 < h)
    (hbound : 2 * (h * E.getImageWidth src) + E.getImageHeight src ≤ 2 ^ 50) :
    scaleDims (resize E src format 0 h compression).2 =
      [((derivedDim h (E.getImageWidth src) (E.getImageHeight src)).toNat, h)] ∧
    cropCalls (resize E src format 0 h compression).2 = [] := by
  obtain ⟨d0, _, dor⟩ := derivedDim_spec h _ _ hh how hoh hbound
  obtain ⟨b1, _, _⟩ := sizes_lt_of_bound hh how hbound
  have hr : (2 * ((h : Int) * E.getImageWidth src) + E.getImageHeight src) /
      (2 * (E.getImageHeight src : Int)) ≤
      2 * ((h : Int) * E.getImageWidth src) + E.getImageHeight src :=
    Int.ediv_le_self _ (by positivity)
  have hN : 2 * ((h : Int) * E.getImageWidth src) + E.getImageHeight src ≤ 2 ^ 50 := by
    exact_mod_cast hbound
  have hwh : ¬ ((0 : Int) = 0 ∧ (h : Int) = 0) := by omega
  rw [resize_scaleDims E src format 0 h compression hwh hread,
    resize_cropCalls E src format 0 h compression hwh hread,
    geometry_width_unset _ _ _ hh how hbound]
  refine ⟨?_, rfl⟩
  simp only
  rw [uintOfInt_of_nonneg d0 (by rcases dor with e | e <;> omega), uintOfInt_natCast (by omega)]

/-- The scale step of a request with the height unset. -/
theorem scaleDims_height_unset (E : Engine) (src format : String) (compression : Nat)
    (hread : E.readImage src = none)
    (how : 0 < E.getImageWidth src) (hoh : 0 < E.getImageHeight src)
    (w : Nat) (hw : 0 < w)
    (hbound : 2 * (w * E.getImageHeight src) + E.getImageWidth src ≤ 2 ^ 50) :
    scaleDims (resize E src format w 0 compression).2 =
      [(w, (derivedDim w (E.getImageHeight src) (E.getImageWidth src)).toNat)] ∧
    cropCalls (resize E src format w 0 compression).2 = [] := by
  obtain ⟨d0, _, dor⟩ := derivedDim_spec w _ _ hw hoh how hbound
  obtain ⟨b1, _, _⟩ := sizes_lt_of_bound hw hoh hbound
  have hr : (2 * ((w : Int) * E.getImageHeight src) + E.getImageWidth src) /
      (2 * (E.getImageWidth src : Int)) ≤
      2 * ((w : Int) * E.getImageHeight src) + E.getImageWidth src :=
    Int.ediv_le_self _ (by positivity)
  have hN : 2 * ((w : Int) * E.getImageHeight src) + E.getImageWidth src ≤ 2 ^ 50 := by
    exact_mod_cast hbound
  have hwh : ¬ ((w : Int) = 0 ∧ (0 : Int) = 0) := by omega
  rw [resize_scaleDims E src format w 0 compression hwh hread,
    resize_cropCalls E src format w 0 compression hwh hread,
    geometry_height_unset _ _ _ hw hoh hbound]
  refine ⟨?_, rfl⟩
  simp only
  rw [uintOfInt_of_nonneg d0 (by rcases dor with e | e <;> omega), uintOfInt_natCast (by omega)]

/-- C2, as stated, fails: a source of 100 by 200 with the request (0, 29) reaches the scale
step with the width 14, and the round-half-up of `29 * 100 / 200 = 14.5` is 15. -/
theorem round_half_up_counterexample :
    scaleDims (resize (okEngine 100 200) "test_tmp/src.jpg" "jpg" 0 29 95).2 = [(14, 29)] ∧
    Int.floor ((29 : ℚ) * 100 / 200 + 1 / 2) = 15 := by
  constructor
  · rw [resize_scaleDims _ _ _ _ _ _ (by decide) rfl]
    decide!
  · decide!

/-- C2, amended: for a decoded source of positive size `ow` by `oh` and a request with
exactly one dimension unset and `2 * h * ow + oh ≤ 2 ^ 50` (width unset) or
`2 * w * oh + ow ≤ 2 ^ 50` (height unset), the scale step receives the set dimension
unchanged, and the other is the round-half-up of the aspect-scaled source dimension, or
possibly one less when that value lies half-way between two integers (`2 * oh` divides
`2 * h * ow + oh`, respectively `2 * ow` divides `2 * w * oh + ow`). -/
theorem resize_one_unset_dims (E : Engine) (src format : String) (compression : Nat)
    (hread : E.readImage src = none)
    (how : 0 < E.getImageWidth src) (hoh : 0 < E.getImageHeight src) :
    (∀ h : Nat, 0 < h → 2 * (h * E.getImageWidth src) + E.getImageHeight src ≤ 2 ^ 50 →
      ∃ d : Nat, scaleDims (resize E src format 0 h compression).2 = [(d, h)] ∧
        (¬ (2 * (E.getImageHeight src : Int) ∣
            2 * ((h : Int) * E.getImageWidth src) + E.getImageHeight src) →
          (d : Int) =
            Int.floor ((h : ℚ) * E.getImageWidth src / E.getImageHeight src + 1 / 2)) ∧
        ((d : Int) =
            Int.floor ((h : ℚ) * E.getImageWidth src / E.getImageHeight src + 1 / 2) ∨
          (d : Int) =
            Int.floor ((h : ℚ) * E.getImageWidth src / E.getImageHeight src + 1 / 2) - 1)) ∧
    (∀ w : Nat, 0 < w → 2 * (w * E.getImageHeight src) + E.getImageWidth src ≤ 2 ^ 50 →
      ∃ d : Nat, scaleDims (resize E src format w 0 compression).2 = [(w, d)] ∧
        (¬ (2 * (E.getImageWidth src : Int) ∣
            2 * ((w : Int) * E.getImageHeight src) + E.getImageWidth src) →
          (d : Int) =
            Int.floor ((w : ℚ) * E.getImageHeight src / E.getImageWidth src + 1 / 2)) ∧
        ((d : Int) =
            Int.floor ((w : ℚ) * E.getImageHeight src / E.getImageWidth src + 1 / 2) ∨
          (d : Int) =
            Int.floor ((w : ℚ) * E.getImageHeight src / E.getImageWidth src + 1 / 2) - 1)) := by
  constructor
  · intro h hh hbound
    obtain ⟨d0, dnt, dor⟩ := derivedDim_spec h _ _ hh how hoh hbound
    refine ⟨_, (scaleDims_width_unset E src format compression hread how hoh h hh hbound).1,
      ?_, ?_⟩
    all_goals rw [floor_mul_div_add_half_nat _ _ _ hoh, Int.toNat_of_nonneg d0]
    · exact dnt
    · exact dor
  · intro w hw hbound
    obtain ⟨d0, dnt, dor⟩ := derivedDim_spec w _ _ hw hoh how hbound
    refine ⟨_, (scaleDims_height_unset E src format compression hread how hoh w hw hbound).1,
      ?_, ?_⟩
    all_goals rw [floor_mul_div_add_half_nat _ _ _ how, Int.toNat_of_nonneg d0]
    · exact dnt
    · exact dor

/-- The sizes of `TestImageResizeSizes` with one dimension unset: none is a tie, and the
scale step receives the expected sizes. -/
theorem resize_one_unset_dims_witness :
    scaleDims (resize (okEngine 100 200) "test_tmp/src.jpg" "jpg" 10 0 95).2 = [(10, 20)] ∧
    scaleDims (resize (okEngine 100 200) "test_tmp/src.jpg" "jpg" 0 20 95).2 = [(10, 20)] ∧
    scaleDims (resize (okEngine 100 200) "test_tmp/src.jpg" "jpg" 500 0 95).2 = [(500, 1000)] ∧
    scaleDims (resize (okEngine 200 50) "test_tmp/src.jpg" "jpg" 100 0 95).2 = [(100, 25)] := by
  have e1 := resize_one_unset_dims (okEngine 100 200) "test_tmp/src.jpg" "jpg" 95 rfl
    (by decide) (by decide)
  have e2 := resize_one_unset_dims (okEngine 200 50) "test_tmp/src.jpg" "jpg" 95 rfl
    (by decide) (by decide)
  obtain ⟨d1, s1, n1, _⟩ := e1.2 10 (by decide) (by decide)
  obtain ⟨d2, s2, n2, _⟩ := e1.1 20 (by decide) (by decide)
  obtain ⟨d3, s3, n3, _⟩ := e1.2 500 (by decide) (by decide)
  obtain ⟨d4, s4, n4, _⟩ := e2.2 100 (by decide) (by decide)
  have v1 : d1 = 20 := by
    have hv : (d1 : Int) = 20 := by
      rw [n1 (by decide), floor_mul_div_add_half_nat _ _ _ (by decide)]
      decide
    exact_mod_cast hv
  have v2 : d2 = 10 := by
    have hv : (d2 : Int) = 10 := by
      rw [n2 (by decide), floor_mul_div_add_half_nat _ _ _ (by decide)]
      decide
    exact_mod_cast hv
  have v3 : d3 = 1000 := by
    have hv : (d3 : Int) = 1000 := by
      rw [n3 (by decide), floor_mul_div_add_half_nat _ _ _ (by decide)]
      decide
    exact_mod_cast hv
  have v4 : d4 = 25 := by
    have hv : (d4 : Int) = 25 := by
      rw [n4 (by decide), floor_mul_div_add_half_nat _ _ _ (by decide)]
      decide
    exact_mod_cast hv
  subst v1 v2 v3 v4
  exact ⟨s1, s2, s3, s4⟩

/-! ## Dimensions with both dimensions set -/

/-- C3: for a decoded source and a request with both dimensions positive (in the range of a
Go `int`), the scale step receives exactly the requested dimensions, whatever the source
size and whether or not a crop was applied. -/
theorem resize_both_set_dims (E : Engine) (src format : String) (compression : Nat)
    (w h : Int) (hread : E.readImage src = none)
    (hw : 0 < w) (hh : 0 < h) (hwm : w ≤ maxInt) (hhm : h ≤ maxInt) :
    scaleDims (resize E src format w h compression).2 = [(w.toNat, h.toNat)] := by
  obtain ⟨gw, gh⟩ := geometry_dims_of_set (E.getImageWidth src) (E.getImageHeight src) w h
    hw.ne.symm hh.ne.symm
  rw [resize_scaleDims E src format w h compression (by omega) hread, gw, gh]
  simp only [maxInt] at hwm hhm
  rw [uintOfInt_of_nonneg hw.le (by omega), uintOfInt_of_nonneg hh.le (by omega)]

/-- The sizes of `TestImageResizeSizes` with both dimensions set. -/
theorem resize_both_set_dims_witness :
    scaleDims (resize (okEngine 100 200) "test_tmp/src.jpg" "jpg" 10 20 95).2 = [(10, 20)] ∧
    scaleDims (resize (okEngine 100 200) "test_tmp/src.jpg" "jpg" 5 20 95).2 = [(5, 20)] ∧
    scaleDims (resize (okEngine 200 50) "test_tmp/src.jpg" "jpg" 100 100 95).2 = [(100, 100)] :=
  ⟨resize_both_set_dims (okEngine 100 200) "test_tmp/src.jpg" "jpg" 95 10 20 rfl
      (by decide) (by decide) (by decide) (by decide),
    resize_both_set_dims (okEngine 100 200) "test_tmp/src.jpg" "jpg" 95 5 20 rfl
      (by decide) (by decide) (by decide) (by decide),
    resize_both_set_dims (okEngine 200 50) "test_tmp/src.jpg" "jpg" 95 100 100 rfl
      (by decide) (by decide) (by decide) (by decide)⟩

/-! ## The crop decision -/

theorem geometry_crop_of_unset (iw ih : Nat) (w h : Int) (hz : w = 0 ∨ h = 0) :
    (geometry iw ih w h).crop = none := by
  unfold geometry
  rcases hz with hz | hz
  · simp [hz]
  · by_cases hw : w = 0
    · simp [hw]
    · simp [hw, hz]

/-- The crop of the geometry is the crop of the reference plan taken with the pre-crop width
that `float64` gives. -/
theorem geometry_crop_eq (ow oh w h : Nat) (hw : 0 < w) (hh : 0 < h) (hoh : 0 < oh)
    (hb1 : 2 * (w * oh) + h ≤ 2 ^ 50) (hb2 : ow * h + w * oh < 2 ^ 53) :
    (geometry ow oh w h).crop = specCropWith ow oh w h (preCropWidth w h oh) := by
  have hcmp : ((ow : ℚ) / oh > (w : ℚ) / h) ↔ w * oh < ow * h := by
    have h1 : (0 : ℚ) < oh := by exact_mod_cast hoh
    have h2 : (0 : ℚ) < h := by exact_mod_cast hh
    rw [gt_iff_lt, div_lt_div_iff₀ h2 h1]
    exact_mod_cast Iff.rfl
  rw [geometry_both_set ow oh w h hw hh hoh hb1 hb2]
  simp only [specCropWith, hcmp, hw, hh, true_and]
  split <;> rfl

/-- C4, as stated, fails. A source of 100 by 100 with the request (7, 56) is cropped to the
region 12 wide at offset 44, where the reference plan has 13 wide at offset 43, as
`7 * 100 / 56 = 12.5` rounds to 12 in `float64`; and the negative request (-50, -100) is
cropped although `w > 0` and `h > 0` fail. -/
theorem crop_plan_counterexample :
    cropCalls (resize (okEngine 100 100) "test_tmp/src.png" "jpg" 7 56 95).2 =
      [⟨12, 100, 44, 0⟩] ∧
    specCrop 100 100 7 56 = some ⟨13, 100, 43, 0⟩ ∧
    cropCalls (resize (okEngine 100 100) "test_tmp/src.png" "jpg" (-50) (-100) 95).2 =
      [⟨50, 100, 25, 0⟩] := by
  refine ⟨?_, by decide!, ?_⟩
  · rw [resize_cropCalls _ _ _ _ _ _ (by decide) rfl]
    decide!
  · rw [resize_cropCalls _ _ _ _ _ _ (by decide) rfl]
    decide!

/-- C4, amended: for a decoded source of positive size `ow` by `oh` and a request of
nonnegative dimensions not both zero, with `2 * w * oh + h ≤ 2 ^ 50` and
`ow * h + w * oh < 2 ^ 53` when both are set, the crop decision of `resize` is that of the
reference plan taken with a pre-crop width `nw` that is `floor (w * oh / h + 1 / 2)`, or
possibly one less when `w * oh / h` lies half-way between two integers (`2 * h` divides
`2 * w * oh + h`): one `CropImage` call with the region of `specCropWith` when it plans a
crop, none otherwise, and the call stands between the size queries and the scale step. -/
theorem resize_crop_refines_spec (E : Engine) (src format : String) (compression : Nat)
    (w h : Nat) (hread : E.readImage src = none) (hoh : 0 < E.getImageHeight src)
    (hwh : ¬ (w = 0 ∧ h = 0))
    (hb : 0 < w → 0 < h →
      2 * (w * E.getImageHeight src) + h ≤ 2 ^ 50 ∧
      E.getImageWidth src * h + w * E.getImageHeight src < 2 ^ 53) :
    ∃ nw : Int,
      (nw = Int.floor ((w : ℚ) * E.getImageHeight src / h + 1 / 2) ∨
        nw = Int.floor ((w : ℚ) * E.getImageHeight src / h + 1 / 2) - 1) ∧
      (¬ (2 * (h : Int) ∣ 2 * ((w : Int) * E.getImageHeight src) + h) →
        nw = Int.floor ((w : ℚ) * E.getImageHeight src / h + 1 / 2)) ∧
      cropCalls (resize E src format w h compression).2 =
        (specCropWith (E.getImageWidth src) (E.getImageHeight src) w h nw).toList ∧
      ∃ a b rest, (resize E src format w h compression).2 =
        [Event.lock, Event.init, Event.newMagickWand, Event.readImage src,
          Event.getImageWidth, Event.getImageHeight]
        ++ cropEvents (specCropWith (E.getImageWidth src) (E.getImageHeight src) w h nw)
        ++ Event.resizeImage a b :: rest ∧ cropCalls rest = [] := by
  have hwh2 : ¬ ((w : Int) = 0 ∧ (h : Int) = 0) := by omega
  obtain ⟨rest, ht, _, hc⟩ := resize_trace_of_read E src format w h compression hwh2 hread
  have hcalls := resize_cropCalls E src format w h compression hwh2 hread
  by_cases hset : 0 < w ∧ 0 < h
  · obtain ⟨hw, hh⟩ := hset
    obtain ⟨hb1, hb2⟩ := hb hw hh
    obtain ⟨_, fnt, forr⟩ := preCropWidth_spec w h _ hw hh hoh hb1
    have hg := geometry_crop_eq (E.getImageWidth src) (E.getImageHeight src) w h hw hh hoh
      hb1 hb2
    rw [hg] at ht hcalls
    refine ⟨preCropWidth w h (E.getImageHeight src), ?_, ?_, hcalls, _, _, rest, ht, hc⟩
    all_goals rw [floor_mul_div_add_half_nat _ _ _ hh]
    · exact forr
    · exact fnt
  · have hz : (w : Int) = 0 ∨ (h : Int) = 0 := by omega
    have hg := geometry_crop_of_unset (E.getImageWidth src) (E.getImageHeight src) w h hz
    have hs : ∀ nw, specCropWith (E.getImageWidth src) (E.getImageHeight src) w h nw = none := by
      intro nw
      unfold specCropWith
      rw [if_neg]
      intro hcon
      exact hset ⟨hcon.1, hcon.2.1⟩
    rw [hg, ← hs (Int.floor ((w : ℚ) * E.getImageHeight src / h + 1 / 2))] at ht hcalls
    exact ⟨Int.floor ((w : ℚ) * E.getImageHeight src / h + 1 / 2), Or.inl rfl, fun _ => rfl,
      hcalls, _, _, rest, ht, hc⟩

/-- The request of `TestImageResizeCropping`: a source of 100 by 100 and a request of 50 by
100, not a tie, crop to the region 50 by 100 at offset (25, 0) of the reference plan, which
keeps the columns 25 to 74. -/
theorem resize_crop_refines_spec_witness :
    cropCalls (resize (okEngine 100 100) "test_tmp/src.png" "jpg" 50 100 25).2 =
      [⟨50, 100, 25, 0⟩] ∧
    specCrop 100 100 50 100 = some ⟨50, 100, 25, 0⟩ := by
  obtain ⟨nw, _, hnt, hcalls, _⟩ :=
    resize_crop_refines_spec (okEngine 100 100) "test_tmp/src.png" "jpg" 25 50 100 rfl
      (by decide) (by decide) (fun _ _ => ⟨by decide, by decide⟩)
  have hnw := hnt (by decide)
  rw [floor_mul_div_add_half_nat _ _ _ (by decide)] at hnw
  have hv : nw = 50 := hnw.trans (by decide)
  subst hv
  have hs : specCropWith ((okEngine 100 100).getImageWidth "test_tmp/src.png")
      ((okEngine 100 100).getImageHeight "test_tmp/src.png") 50 100 50 =
      some ⟨50, 100, 25, 0⟩ := by decide!
  rw [hs] at hcalls
  exact ⟨hcalls, by decide!⟩

/-! ## Failure of an engine step -/

/-- C5: a failing crop step does not make `resize` fail. On a source of 100 by 100 with the
request 50 by 100, the `CropImage` call of `resize` fails on `cropFailEngine`, and `resize`
still goes on to the scale, format, quality and write steps and returns the path of the
scratch file with a `nil` error. -/
theorem resize_ignores_crop_failure :
    cropFailEngine.cropImage 50 100 25 0 = some "crop failed" ∧
    resize cropFailEngine "test_tmp/src.png" "jpg" 50 100 25 =
      (⟨"thumbnailer", none⟩,
        [Event.lock, Event.init, Event.newMagickWand, Event.readImage "test_tmp/src.png",
          Event.getImageWidth, Event.getImageHeight, Event.cropImage 50 100 25 0,
          Event.resizeImage 50 100, Event.setImageFormat "jpg",
          Event.setImageCompressionQuality 25, Event.tempFile,
          Event.writeImageFile "thumbnailer", Event.close "thumbnailer",
          Event.destroy, Event.terminate, Event.unlock]) := by
  have hg : geometry 100 100 50 100 = ⟨50, 100, some ⟨50, 100, 25, 0⟩⟩ := by decide!
  have hu1 : uintOfInt 50 = 50 := by decide
  have hu2 : uintOfInt 100 = 100 := by decide
  refine ⟨rfl, ?_⟩
  simp [resize, cropFailEngine, okEngine, hg, hu1, hu2, cropEvents, deferred]

/-! ## Positivity of the final dimensions -/

/-- C6, as stated, fails: a source of 1 by 100 with the request (0, 1) reaches the scale step
with the dimensions 0 by 1. -/
theorem final_width_zero_counterexample :
    scaleDims (resize (okEngine 1 100) "test_tmp/src.jpg" "jpg" 0 1 95).2 = [(0, 1)] ∧
    ¬ (∀ d ∈ scaleDims (resize (okEngine 1 100) "test_tmp/src.jpg" "jpg" 0 1 95).2,
        1 ≤ d.1 ∧ 1 ≤ d.2) := by
  have h : scaleDims (resize (okEngine 1 100) "test_tmp/src.jpg" "jpg" 0 1 95).2 = [(0, 1)] := by
    rw [resize_scaleDims _ _ _ _ _ _ (by decide) rfl]
    decide!
  refine ⟨h, ?_⟩
  rw [h]
  decide

/-- C6, amended: for a decoded source of positive size `ow` by `oh` and a valid request
(`w ≥ 0`, `h ≥ 0`, not both zero, each in the range of a Go `int`), with
`2 * h * ow + oh ≤ 2 ^ 50` when the width is unset and `2 * w * oh + ow ≤ 2 ^ 50` when the
height is unset, a dimension that is set reaches the scale step unchanged (so it is at
least 1), and a derived dimension is at least 1 exactly when the aspect-scaled value is at
least one half: `oh ≤ 2 * h * ow` for a derived width, `ow ≤ 2 * w * oh` for a derived
height. -/
theorem resize_final_dims (E : Engine) (src format : String) (compression : Nat) (w h : Nat)
    (hread : E.readImage src = none)
    (how : 0 < E.getImageWidth src) (hoh : 0 < E.getImageHeight src)
    (hwh : ¬ (w = 0 ∧ h = 0)) (hwm : (w : Int) ≤ maxInt) (hhm : (h : Int) ≤ maxInt)
    (hbw : w = 0 → 2 * (h * E.getImageWidth src) + E.getImageHeight src ≤ 2 ^ 50)
    (hbh : h = 0 → 2 * (w * E.getImageHeight src) + E.getImageWidth src ≤ 2 ^ 50) :
    ∃ a b : Nat, scaleDims (resize E src format w h compression).2 = [(a, b)] ∧
      (0 < w → a = w) ∧ (0 < h → b = h) ∧
      (w = 0 → (1 ≤ a ↔ E.getImageHeight src ≤ 2 * (h * E.getImageWidth src))) ∧
      (h = 0 → (1 ≤ b ↔ E.getImageWidth src ≤ 2 * (w * E.getImageHeight src))) := by
  rcases Nat.eq_zero_or_pos w with hw0 | hwpos
  · subst hw0
    have hhpos : 0 < h := by omega
    have hbound := hbw rfl
    obtain ⟨d0, dnt, dor⟩ := derivedDim_spec h _ _ hhpos how hoh hbound
    have hs := (scaleDims_width_unset E src format compression hread how hoh h hhpos hbound).1
    have hiff := one_le_iff_of_near ((h : Int) * E.getImageWidth src) (E.getImageHeight src)
      (derivedDim h (E.getImageWidth src) (E.getImageHeight src)) (by omega) dnt dor (by
        intro heq
        have heq' : E.getImageHeight src = 2 * (h * E.getImageWidth src) := by exact_mod_cast heq
        rw [heq']
        exact derivedDim_half h _ hhpos how)
    refine ⟨_, _, hs, fun hc => absurd hc (by omega), fun _ => rfl, fun _ => ?_,
      fun hc => absurd hc (by omega)⟩
    constructor
    · intro h1
      have : (1 : Int) ≤ derivedDim h (E.getImageWidth src) (E.getImageHeight src) := by omega
      exact_mod_cast hiff.mp this
    · intro h1
      have : (1 : Int) ≤ derivedDim h (E.getImageWidth src) (E.getImageHeight src) :=
        hiff.mpr (by exact_mod_cast h1)
      omega
  rcases Nat.eq_zero_or_pos h with hh0 | hhpos
  · subst hh0
    have hbound := hbh rfl
    obtain ⟨d0, dnt, dor⟩ := derivedDim_spec w _ _ hwpos hoh how hbound
    have hs := (scaleDims_height_unset E src format compression hread how hoh w hwpos hbound).1
    have hiff := one_le_iff_of_near ((w : Int) * E.getImageHeight src) (E.getImageWidth src)
      (derivedDim w (E.getImageHeight src) (E.getImageWidth src)) (by omega) dnt dor (by
        intro heq
        have heq' : E.getImageWidth src = 2 * (w * E.getImageHeight src) := by exact_mod_cast heq
        rw [heq']
        exact derivedDim_half w _ hwpos hoh)
    refine ⟨_, _, hs, fun _ => rfl, fun hc => absurd hc (by omega),
      fun hc => absurd hc (by omega), fun _ => ?_⟩
    constructor
    · intro h1
      have : (1 : Int) ≤ derivedDim w (E.getImageHeight src) (E.getImageWidth src) := by omega
      exact_mod_cast hiff.mp this
    · intro h1
      have : (1 : Int) ≤ derivedDim w (E.getImageHeight src) (E.getImageWidth src) :=
        hiff.mpr (by exact_mod_cast h1)
      omega
  · obtain ⟨gw, gh⟩ := geometry_dims_of_set (E.getImageWidth src) (E.getImageHeight src) w h
      (by omega) (by omega)
    simp only [maxInt] at hwm hhm
    refine ⟨w, h, ?_, fun _ => rfl, fun _ => rfl, fun hc => absurd hc (by omega),
      fun hc => absurd hc (by omega)⟩
    rw [resize_scaleDims E src format w h compression (by omega) hread, gw, gh,
      uintOfInt_natCast (by omega), uintOfInt_natCast (by omega)]

/-- A source of 100 by 200 with the request (10, 0): both final dimensions are at least 1. -/
theorem resize_final_dims_witness :
    ∃ a b : Nat,
      scaleDims (resize (okEngine 100 200) "test_tmp/src.jpg" "jpg" 10 0 95).2 = [(a, b)] ∧
      1 ≤ a ∧ 1 ≤ b := by
  obtain ⟨a, b, hs, h1, _, _, h4⟩ :=
    resize_final_dims (okEngine 100 200) "test_tmp/src.jpg" "jpg" 95 10 0 rfl
      (by decide) (by decide) (by decide) (by decide) (by decide)
      (fun hc => absurd hc (by decide)) (fun _ => by decide)
  have ha : a = 10 := h1 (by decide)
  exact ⟨a, b, hs, by omega, (h4 rfl).mpr (by decide)⟩

/-! ## Aspect ratio with one dimension unset -/

/-- C7, as stated, fails: a source of 3 by 2 with the request (0, 1) reaches the scale step
with the dimensions 2 by 1, and `2 * 2 ≠ 1 * 3`. -/
theorem aspect_not_exact_counterexample :
    scaleDims (resize (okEngine 3 2) "test_tmp/src.jpg" "jpg" 0 1 95).2 = [(2, 1)] ∧
    ¬ (∀ d ∈ scaleDims (resize (okEngine 3 2) "test_tmp/src.jpg" "jpg" 0 1 95).2,
        d.1 * (okEngine 3 2).getImageHeight "test_tmp/src.jpg" =
          d.2 * (okEngine 3 2).getImageWidth "test_tmp/src.jpg") := by
  have h : scaleDims (resize (okEngine 3 2) "test_tmp/src.jpg" "jpg" 0 1 95).2 = [(2, 1)] := by
    rw [resize_scaleDims _ _ _ _ _ _ (by decide) rfl]
    decide!
  refine ⟨h, ?_⟩
  rw [h]
  decide

/-- C7, amended: for a decoded source of positive size `ow` by `oh` and a request with
exactly one dimension unset and `2 * h * ow + oh ≤ 2 ^ 50` (width unset) or
`2 * w * oh + ow ≤ 2 ^ 50` (height unset), no crop is applied and the final dimensions keep
the source aspect ratio up to the rounding of the derived dimension:
`2 * |finalWidth * oh - finalHeight * ow|` is at most `oh` when the width is derived and at
most `ow` when the height is derived, and `finalWidth * oh = finalHeight * ow` holds exactly
when `oh` divides `h * ow`, respectively `ow` divides `w * oh`. -/
theorem resize_one_unset_aspect (E : Engine) (src format : String) (compression : Nat)
    (hread : E.readImage src = none)
    (how : 0 < E.getImageWidth src) (hoh : 0 < E.getImageHeight src) :
    (∀ h : Nat, 0 < h → 2 * (h * E.getImageWidth src) + E.getImageHeight src ≤ 2 ^ 50 →
      cropCalls (resize E src format 0 h compression).2 = [] ∧
      ∃ a b : Nat, scaleDims (resize E src format 0 h compression).2 = [(a, b)] ∧
        2 * |(a : Int) * E.getImageHeight src - b * E.getImageWidth src| ≤
          E.getImageHeight src ∧
        ((a : Int) * E.getImageHeight src = b * E.getImageWidth src ↔
          (E.getImageHeight src : Int) ∣ h * E.getImageWidth src)) ∧
    (∀ w : Nat, 0 < w → 2 * (w * E.getImageHeight src) + E.getImageWidth src ≤ 2 ^ 50 →
      cropCalls (resize E src format w 0 compression).2 = [] ∧
      ∃ a b : Nat, scaleDims (resize E src format w 0 compression).2 = [(a, b)] ∧
        2 * |(a : Int) * E.getImageHeight src - b * E.getImageWidth src| ≤
          E.getImageWidth src ∧
        ((a : Int) * E.getImageHeight src = b * E.getImageWidth src ↔
          (E.getImageWidth src : Int) ∣ w * E.getImageHeight src)) := by
  constructor
  · intro h hh hbound
    obtain ⟨d0, dnt, dor⟩ := derivedDim_spec h _ _ hh how hoh hbound
    obtain ⟨hs, hc⟩ := scaleDims_width_unset E src format compression hread how hoh h hh hbound
    obtain ⟨n1, n2⟩ := near_quotient ((h : Int) * E.getImageWidth src) (E.getImageHeight src)
      (derivedDim h (E.getImageWidth src) (E.getImageHeight src)) (by omega) dnt dor
    refine ⟨hc, _, _, hs, ?_, ?_⟩
    all_goals rw [Int.toNat_of_nonneg d0]
    · exact n1
    · exact n2
  · intro w hw hbound
    obtain ⟨d0, dnt, dor⟩ := derivedDim_spec w _ _ hw hoh how hbound
    obtain ⟨hs, hc⟩ := scaleDims_height_unset E src format compression hread how hoh w hw hbound
    obtain ⟨n1, n2⟩ := near_quotient ((w : Int) * E.getImageHeight src) (E.getImageWidth src)
      (derivedDim w (E.getImageHeight src) (E.getImageWidth src)) (by omega) dnt dor
    refine ⟨hc, _, _, hs, ?_, ?_⟩
    all_goals rw [Int.toNat_of_nonneg d0]
    · rw [abs_sub_comm]
      exact n1
    · rw [← n2]
      exact eq_comm

/-- A source of 100 by 200 with the request (10, 0): no crop, and the final dimensions are
in the ratio 100 to 200 exactly, as 100 divides 10 * 200. -/
theorem resize_one_unset_aspect_witness :
    cropCalls (resize (okEngine 100 200) "test_tmp/src.jpg" "jpg" 10 0 95).2 = [] ∧
    ∃ a b : Nat,
      scaleDims (resize (okEngine 100 200) "test_tmp/src.jpg" "jpg" 10 0 95).2 = [(a, b)] ∧
      (a : Int) * 200 = b * 100 := by
  obtain ⟨hc, a, b, hs, _, hiff⟩ :=
    (resize_one_unset_aspect (okEngine 100 200) "test_tmp/src.jpg" "jpg" 95 rfl
      (by decide) (by decide)).2 10 (by decide) (by decide)
  exact ⟨hc, a, b, hs, hiff.mpr (by decide)⟩

/-! ## Validity of the crop region -/

/-- C10, as stated, fails: a source of 1 by 1 with the request (1, 3) is cropped to a region
of width 0. -/
theorem crop_width_zero_counterexample :
    cropCalls (resize (okEngine 1 1) "test_tmp/src.png" "jpg" 1 3 95).2 = [⟨0, 1, 0, 0⟩] ∧
    ¬ (∀ c ∈ cropCalls (resize (okEngine 1 1) "test_tmp/src.png" "jpg" 1 3 95).2,
        1 ≤ c.width) := by
  have h : cropCalls (resize (okEngine 1 1) "test_tmp/src.png" "jpg" 1 3 95).2 =
      [⟨0, 1, 0, 0⟩] := by
    rw [resize_cropCalls _ _ _ _ _ _ (by decide) rfl]
    decide!
  refine ⟨h, ?_⟩
  rw [h]
  decide

/-- C10, amended: for a decoded source `ow` by `oh` with `oh` positive and a request with both
dimensions positive, `2 * w * oh + h ≤ 2 ^ 50` and `ow * h + w * oh < 2 ^ 53`, every crop
that `resize` applies has height `oh`, vertical offset 0, a horizontal offset that is not
negative, and lies within the source width (`xOffset + cropWidth ≤ ow`); its width is at
least 1 exactly when `h ≤ 2 * w * oh`, and is 0 otherwise. -/
theorem resize_crop_region (E : Engine) (src format : String) (compression : Nat) (w h : Nat)
    (hread : E.readImage src = none) (hoh : 0 < E.getImageHeight src)
    (hw : 0 < w) (hh : 0 < h)
    (hb1 : 2 * (w * E.getImageHeight src) + h ≤ 2 ^ 50)
    (hb2 : E.getImageWidth src * h + w * E.getImageHeight src < 2 ^ 53) :
    ∀ c ∈ cropCalls (resize E src format w h compression).2,
      c.height = E.getImageHeight src ∧ 0 ≤ c.x ∧ c.y = 0 ∧
      c.x + c.width ≤ E.getImageWidth src ∧
      (1 ≤ c.width ↔ h ≤ 2 * (w * E.getImageHeight src)) := by
  intro c hc
  rw [resize_cropCalls _ _ _ _ _ _ (by omega) hread,
    geometry_both_set _ _ _ _ hw hh hoh hb1 hb2] at hc
  obtain ⟨f0, fnt, forr⟩ := preCropWidth_spec w h _ hw hh hoh hb1
  have hiff := one_le_iff_of_near ((w : Int) * E.getImageHeight src) h
    (preCropWidth w h (E.getImageHeight src)) (by omega) fnt forr (by
      intro heq
      have heq' : h = 2 * (w * E.getImageHeight src) := by exact_mod_cast heq
      have hlt : 2 * (w * E.getImageHeight src) < 2 ^ 53 := by omega
      have := preCropWidth_half w (E.getImageHeight src) hw hoh hlt
      rw [← heq'] at this
      omega)
  split at hc
  · rename_i hcond
    simp only [Option.toList, List.mem_singleton] at hc
    subst hc
    simp only
    refine ⟨trivial, by omega, trivial, by omega, ?_⟩
    constructor
    · intro h1
      have : (1 : Int) ≤ preCropWidth w h (E.getImageHeight src) := by omega
      exact_mod_cast hiff.mp this
    · intro h1
      have : (1 : Int) ≤ preCropWidth w h (E.getImageHeight src) :=
        hiff.mpr (by exact_mod_cast h1)
      omega
  · simp [Option.toList] at hc

/-- The request of `TestImageResizeCropping`: the one crop lies within the source of 100 by
100 and its width is at least 1. -/
theorem resize_crop_region_witness :
    cropCalls (resize (okEngine 100 100) "test_tmp/src.png" "jpg" 50 100 25).2 ≠ [] ∧
    ∀ c ∈ cropCalls (resize (okEngine 100 100) "test_tmp/src.png" "jpg" 50 100 25).2,
      c.height = 100 ∧ 0 ≤ c.x ∧ c.y = 0 ∧ c.x + c.width ≤ 100 ∧ 1 ≤ c.width := by
  constructor
  · rw [resize_cropCalls _ _ _ _ _ _ (by decide) rfl]
    decide!
  · intro c hc
    obtain ⟨h1, h2, h3, h4, h5⟩ :=
      resize_crop_region (okEngine 100 100) "test_tmp/src.png" "jpg" 25 50 100 rfl
        (by decide) (by decide) (by decide) (by decide) (by decide) c hc
    exact ⟨h1, h2, h3, h4, h5.mpr (by decide)⟩

/-! ## The status check of `getFile` -/

/-- C8, as stated, fails: status 204 is in the success class, and `getFile` returns the
status error for it although the scratch file could be created and written. -/
theorem getFile_success_class_counterexample :
    isSuccessClass 204 = true ∧
    (netWithStatus 204).tempFile = Except.ok "thumbnailer" ∧
    (netWithStatus 204).copy "thumbnailer" "body" = none ∧
    getFile (netWithStatus 204) "http://host/img.png" =
      (⟨"", some (statusError "http://host/img.png" 204)⟩,
        [FetchEvent.get "http://host/img.png", FetchEvent.closeBody]) := by
  refine ⟨by decide, rfl, rfl, ?_⟩
  simp [getFile, netWithStatus]

/-- C8, amended: for every URL and every completed HTTP response, when the scratch file can
be created and written, `getFile` returns an error if and only if the status is not 200.
Every other status, the rest of the success class included, yields the empty path and the
error that names the URL and the status, with no scratch file created; status 200 creates
the scratch file, copies the body into it and returns its path with a `nil` error. -/
theorem getFile_error_iff (N : Net) (url name : String) (resp : Response)
    (hget : N.get url = Except.ok resp) (htmp : N.tempFile = Except.ok name)
    (hcopy : N.copy name resp.body = none) :
    ((getFile N url).1.err.isSome = true ↔ resp.statusCode ≠ 200) ∧
    (resp.statusCode ≠ 200 →
      getFile N url = (⟨"", some (statusError url resp.statusCode)⟩,
        [FetchEvent.get url, FetchEvent.closeBody])) ∧
    (resp.statusCode = 200 →
      getFile N url = (⟨name, none⟩,
        [FetchEvent.get url, FetchEvent.tempFile, FetchEvent.copy name resp.body,
          FetchEvent.closeFile name, FetchEvent.closeBody])) := by
  by_cases hc : resp.statusCode = 200
  · have h : getFile N url = (⟨name, none⟩,
        [FetchEvent.get url, FetchEvent.tempFile, FetchEvent.copy name resp.body,
          FetchEvent.closeFile name, FetchEvent.closeBody]) := by
      simp [getFile, hget, htmp, hcopy, hc]
    refine ⟨?_, fun hne => absurd hc hne, fun _ => h⟩
    rw [h]
    simp [hc]
  · have h : getFile N url = (⟨"", some (statusError url resp.statusCode)⟩,
        [FetchEvent.get url, FetchEvent.closeBody]) := by
      simp [getFile, hget, hc]
    refine ⟨?_, fun _ => h, fun he => absurd he hc⟩
    rw [h]
    simp [hc]

/-- A response with status 200 and one with status 404. -/
theorem getFile_error_iff_witness :
    getFile (netWithStatus 200) "http://host/img.png" =
      (⟨"thumbnailer", none⟩,
        [FetchEvent.get "http://host/img.png", FetchEvent.tempFile,
          FetchEvent.copy "thumbnailer" "body", FetchEvent.closeFile "thumbnailer",
          FetchEvent.closeBody]) ∧
    getFile (netWithStatus 404) "http://host/img.png" =
      (⟨"", some (statusError "http://host/img.png" 404)⟩,
        [FetchEvent.get "http://host/img.png", FetchEvent.closeBody]) :=
  ⟨(getFile_error_iff (netWithStatus 200) "http://host/img.png" "thumbnailer" ⟨200, "body"⟩
      rfl rfl rfl).2.2 rfl,
    (getFile_error_iff (netWithStatus 404) "http://host/img.png" "thumbnailer" ⟨404, "body"⟩
      rfl rfl rfl).2.1 (by decide)⟩

/-! ## Serialisation of concurrent calls -/

theorem Bracketed.getElem?_zero {t : List Event} (h : Bracketed t) :
    t[0]? = some Event.lock := by
  rw [← List.head?_eq_getElem?]
  exact h.1

theorem Bracketed.eq_zero_of_lock {t : List Event} (h : Bracketed t) {k : Nat}
    (hk : t[k]? = some Event.lock) : k = 0 := by
  obtain ⟨h1, _, h3, _⟩ := h
  cases t with
  | nil => simp at h1
  | cons a rest =>
    simp only [List.head?_cons, Option.some.injEq] at h1
    subst h1
    cases k with
    | zero => rfl
    | succ k =>
      exfalso
      simp only [List.getElem?_cons_succ] at hk
      have hmem : Event.lock ∈ rest := List.getElem?_mem hk
      have := List.count_pos_iff.mpr hmem
      simp only [List.count_cons_self] at h3
      omega

theorem Bracketed.last_of_unlock {t : List Event} (h : Bracketed t) {k : Nat}
    (hk : t[k]? = some Event.unlock) : k + 1 = t.length := by
  obtain ⟨_, h2, _, h4⟩ := h
  obtain ⟨ys, rfl⟩ := List.getLast?_eq_some_iff.mp h2
  have hc : List.count Event.unlock ys = 0 := by
    simp only [List.count_append, List.count_singleton_self] at h4
    omega
  have hnot : Event.unlock ∉ ys := List.count_eq_zero.mp hc
  have hlt : k < (ys ++ [Event.unlock]).length := by
    by_contra hge
    rw [List.getElem?_eq_none (by omega)] at hk
    simp at hk
  simp only [List.length_append, List.length_singleton] at hlt ⊢
  by_contra hne
  have hk2 : k < ys.length := by omega
  rw [List.getElem?_append_left hk2] at hk
  exact hnot (List.getElem?_mem hk)

theorem Bracketed.getElem?_last {t : List Event} (h : Bracketed t) :
    t[t.length - 1]? = some Event.unlock := by
  rw [← List.getLast?_eq_getElem?]
  exact h.2.1

theorem Bracketed.two_le_length {t : List Event} (h : Bracketed t) : 2 ≤ t.length := by
  have h0 := h.getElem?_zero
  have h1 := h.getElem?_last
  by_contra hlt
  have : t.length - 1 = 0 := by omega
  rw [this, h0] at h1
  simp at h1

/-- Every call of `resize` takes the mutex before anything else and releases it as the
last thing, on every path. -/
theorem resize_bracketed (c : Call) : Bracketed c.trace := by
  have hcrop : ∀ o : Option CropArgs, List.count Event.lock (cropEvents o) = 0 ∧
      List.count Event.unlock (cropEvents o) = 0 := by
    intro o
    cases o <;> simp [cropEvents]
  by_cases hwh : c.w = 0 ∧ c.h = 0
  · simp [Bracketed, Call.trace, resize, hwh]
  rcases hread : c.engine.readImage c.src with _ | e
  · simp only [Bracketed, Call.trace, resize, if_neg hwh, hread, List.append_assoc,
      List.cons_append, List.nil_append]
    split
    · simp [deferred, hcrop, List.getLast?_cons]
    · split
      · simp [deferred, hcrop, List.getLast?_cons]
      · split
        · simp [deferred, hcrop, List.getLast?_cons]
        · split
          · simp [deferred, hcrop, List.getLast?_cons]
          · split
            · simp [deferred, hcrop, List.getLast?_cons]
            · simp [deferred, hcrop, List.getLast?_cons]
  · simp [Bracketed, Call.trace, resize, hwh, hread, deferred]

theorem performed_cons (log : List (Nat × Event)) (i j : Nat) (e : Event) :
    performed ((i, e) :: log) j = performed log j + if i = j then 1 else 0 := by
  unfold performed
  rw [List.countP_cons]
  simp

theorem serial_init (prog : Nat → List Event) : Serial prog ⟨false, []⟩ where
  unlocked := by
    intro _ i
    simp [inside, performed]
  held := by
    intro h
    simp at h
  contig := rfl

theorem inside_cons_other (prog : Nat → List Event) (s : Process) (i j : Nat) (e : Event)
    (b : Bool) (hij : i ≠ j) : inside prog ⟨b, (i, e) :: s.log⟩ j = inside prog s j := by
  simp [inside, performed_cons, hij]

theorem inside_cons_self (prog : Nat → List Event) (s : Process) (i : Nat) (e : Event)
    (b : Bool) : inside prog ⟨b, (i, e) :: s.log⟩ i =
      decide (performed s.log i + 1 < (prog i).length) := by
  simp [inside, performed_cons]

/-- A goroutine that is about to perform an event other than `lock` is inside its trace. -/
theorem inside_of_next (prog : Nat → List Event) (hprog : ∀ i, Bracketed (prog i))
    (s : Process) (i : Nat) (e : Event) (hT : (prog i)[performed s.log i]? = some e)
    (he : e ≠ Event.lock) : inside prog s i = true := by
  obtain ⟨hlt, _⟩ := List.getElem?_eq_some_iff.mp hT
  have hn : performed s.log i ≠ 0 := by
    intro h0
    rw [h0, (hprog i).getElem?_zero] at hT
    exact he (Option.some.inj hT).symm
  simp only [inside, decide_eq_true_eq]
  omega

/-- A goroutine inside its trace holds the mutex and performed the latest event. -/
theorem owner_of_inside (prog : Nat → List Event) (s : Process) (hs : Serial prog s) (i : Nat)
    (hi : inside prog s i = true) :
    s.locked = true ∧ s.log.head?.map Prod.fst = some i ∧
      ∀ j, j ≠ i → inside prog s j = false := by
  have hl : s.locked = true := by
    by_contra hne
    have := hs.unlocked (by simpa using hne) i
    rw [hi] at this
    exact Bool.noConfusion this
  obtain ⟨k, _, hhead, hoth⟩ := hs.held hl
  have hik : i = k := by
    by_contra hne
    have := hoth i hne
    rw [hi] at this
    exact Bool.noConfusion this
  subst hik
  exact ⟨hl, hhead, hoth⟩

/-- The invariant is kept by every step of the scheduler. -/
theorem serial_step (prog : Nat → List Event) (hprog : ∀ i, Bracketed (prog i))
    (s : Process) (hs : Serial prog s) (i : Nat) : Serial prog (step prog s i) := by
  unfold step
  cases hT : (prog i)[performed s.log i]? with
  | none => exact hs
  | some e =>
    obtain ⟨hlt, _⟩ := List.getElem?_eq_some_iff.mp hT
    have hlen := (hprog i).two_le_length
    simp only
    by_cases hl : e = Event.lock
    · subst hl
      have hn0 : performed s.log i = 0 := (hprog i).eq_zero_of_lock hT
      simp only [if_true]
      cases hlk : s.locked with
      | true => simpa using hs
      | false =>
        simp only [Bool.false_eq_true, if_false]
        refine ⟨fun h => Bool.noConfusion h, fun _ => ⟨i, ?_, rfl, ?_⟩, ?_⟩
        · rw [inside_cons_self, hn0]
          simp only [decide_eq_true_eq]
          omega
        · intro j hj
          rw [inside_cons_other _ _ _ _ _ _ (Ne.symm hj)]
          exact hs.unlocked hlk j
        · simp [contiguous, hs.contig, hn0]
    · have hin := inside_of_next prog hprog s i e hT hl
      obtain ⟨hlocked, hhead, hoth⟩ := owner_of_inside prog s hs i hin
      simp only [if_neg hl]
      by_cases hu : e = Event.unlock
      · subst hu
        have hlast := (hprog i).last_of_unlock hT
        simp only [if_true]
        refine ⟨fun _ j => ?_, fun h => Bool.noConfusion h, ?_⟩
        · by_cases hj : j = i
          · subst hj
            rw [inside_cons_self]
            simp only [decide_eq_false_iff_not]
            omega
          · rw [inside_cons_other _ _ _ _ _ _ (Ne.symm hj)]
            exact hoth j hj
        · simp [contiguous, hs.contig, hhead]
      · have hnl : performed s.log i + 1 ≠ (prog i).length := by
          intro heq
          have h1 := (hprog i).getElem?_last
          have : (prog i).length - 1 = performed s.log i := by omega
          rw [this, hT] at h1
          exact hu (Option.some.inj h1)
        simp only [if_neg hu, hlocked]
        refine ⟨fun h => Bool.noConfusion h, fun _ => ⟨i, ?_, rfl, ?_⟩, ?_⟩
        · rw [inside_cons_self]
          simp only [decide_eq_true_eq]
          omega
        · intro j hj
          rw [inside_cons_other _ _ _ _ _ _ (Ne.symm hj)]
          exact hoth j hj
        · simp [contiguous, hs.contig, hhead]

theorem serial_foldl (prog : Nat → List Event) (hprog : ∀ i, Bracketed (prog i))
    (sched : List Nat) : ∀ s, Serial prog s → Serial prog (sched.foldl (step prog) s) := by
  induction sched with
  | nil => exact fun s hs => hs
  | cons i rest ih => exact fun s hs => ih _ (serial_step prog hprog s hs i)

theorem serial_run (prog : Nat → List Event) (hprog : ∀ i, Bracketed (prog i))
    (sched : List Nat) : Serial prog (run prog sched) :=
  serial_foldl prog hprog sched _ (serial_init prog)

/-- Two goroutines that call `resize` with both dimensions unset, scheduled in turn: the
second is blocked on the mutex until the first has released it. -/
theorem run_blocked_example :
    run (fun _ => (testCall 100 200 0 0).trace) [0, 1, 0, 1, 1] =
      ⟨false, [(1, Event.unlock), (1, Event.lock), (0, Event.unlock), (0, Event.lock)]⟩ := by
  decide

/-- C9: every call of `resize` takes `resizeMutex` before any other step and releases it
last, once each, whatever the engine returns; hence, for goroutines that each run a call of
`resize` under any schedule, at most one goroutine at a time is between its lock and its
unlock, and the events of each call are consecutive in the order of all events, so that the
engine sequences of two calls never interleave. -/
theorem resize_calls_serialized (calls : Nat → Call) (sched : List Nat) :
    (∀ i, Bracketed (calls i).trace) ∧
    (∀ i j, inside (fun k => (calls k).trace) (run (fun k => (calls k).trace) sched) i = true →
      inside (fun k => (calls k).trace) (run (fun k => (calls k).trace) sched) j = true →
      i = j) ∧
    contiguous (run (fun k => (calls k).trace) sched).log = true := by
  have hb : ∀ i, Bracketed (calls i).trace := fun i => resize_bracketed (calls i)
  have hs := serial_run (fun k => (calls k).trace) hb sched
  refine ⟨hb, ?_, hs.contig⟩
  intro i j hi hj
  have hoth := (owner_of_inside _ _ hs i hi).2.2
  by_contra hne
  have := hoth j (Ne.symm hne)
  rw [hj] at this
  exact Bool.noConfusion this

/-- Two goroutines scheduled in turn, stopped when the second has taken the mutex: the
second is inside its call, the first is not, and the events of each are consecutive. -/
theorem resize_calls_serialized_witness :
    inside (fun _ => (testCall 100 200 0 0).trace)
      (run (fun _ => (testCall 100 200 0 0).trace) [0, 1, 0, 1]) 1 = true ∧
    inside (fun _ => (testCall 100 200 0 0).trace)
      (run (fun _ => (testCall 100 200 0 0).trace) [0, 1, 0, 1]) 0 = false ∧
    contiguous (run (fun _ => (testCall 100 200 0 0).trace) [0, 1, 0, 1]).log = true := by
  have h := resize_calls_serialized (fun _ => testCall 100 200 0 0) [0, 1, 0, 1]
  have h1 : inside (fun _ => (testCall 100 200 0 0).trace)
      (run (fun _ => (testCall 100 200 0 0).trace) [0, 1, 0, 1]) 1 = true := by decide
  refine ⟨h1, ?_, h.2.2⟩
  cases h0 : inside (fun _ => (testCall 100 200 0 0).trace)
      (run (fun _ => (testCall 100 200 0 0).trace) [0, 1, 0, 1]) 0 with
  | false => rfl
  | true => exact absurd (h.2.1 0 1 h0 h1) (by decide)

end Thumbnailer
